import Mathlib

/-!
Verification of the netidx-lite container/VM/codec subsystems.

Shallow embedding of the source files:
  * `src/src/channel.rs` — length-prefixed channel codec
  * `src/netidx-bscript/src/stdfn.rs` — `Any`, `IfEv`, `RpcCall`
  * `src/netidx-tools/src/container/mod.rs` — `Lc` dependency index,
    `check_path` and the RPC handlers, `update_refs`, `publish_formula`,
    `change_formula`, `change_on_write`, `process_publish_request`

Machine integers are modelled as `Nat` with explicit `% 2 ^ w` where overflow
matters; bytes are modelled as `Nat` values (the codec never interprets
payload bytes).  Types belonging to the `netidx` core crate that is not part
of `src/` (`Value`, `Path` string operations, the formula parser) are
modelled from the spec, each with a doc comment saying so.
-/

namespace Channel

/-- `u32::max_value()` as a natural number. -/
def u32Max : Nat := 2 ^ 32 - 1

/-- The error kinds `queue_send_raw`/`fill_buffer` produce
(`std::io::ErrorKind` restricted to the ones `channel.rs` uses). -/
inductive ErrorKind where
  | invalidData
  | unexpectedEof
  deriving DecidableEq, Repr

/-- Big-endian 4-byte encoding of a length, as written by
`BytesMut::put_u32` in `queue_send_raw` (`channel.rs:47`). -/
def be32 (n : Nat) : List Nat :=
  [n / 2 ^ 24 % 256, n / 2 ^ 16 % 256, n / 2 ^ 8 % 256, n % 256]

/-- Big-endian read of the first four bytes of a buffer, as performed by
`BigEndian::read_u32` in `decode_from_buffer` (`channel.rs:108`). -/
def be32Read (l : List Nat) : Nat :=
  l.getD 0 0 * 2 ^ 24 + l.getD 1 0 * 2 ^ 16 + l.getD 2 0 * 2 ^ 8 + l.getD 3 0

/-- `Channel::queue_send_raw` (`channel.rs:37-49`).  Returns the error, if
any, together with the outgoing buffer after the call.  The capacity
`reserve` call does not change buffer contents and is not modelled.  On
success the frame `u32 be length ‖ payload` is appended to the outgoing
buffer; on failure (message longer than `u32::MAX`) the buffer is returned
untouched. -/
def queue_send_raw (outgoing msg : List Nat) : Option ErrorKind × List Nat :=
  if msg.length > u32Max then
    (some .invalidData, outgoing)
  else
    (none, outgoing ++ be32 msg.length ++ msg)

/-- `Channel::decode_from_buffer` (`channel.rs:104-116`).  Returns the
decoded message together with the remaining incoming buffer, or `none` when
the buffer does not yet hold a whole frame. -/
def decode_from_buffer (incoming : List Nat) : Option (List Nat × List Nat) :=
  if incoming.length < 4 then
    none
  else
    let len := be32Read incoming
    if incoming.length - 4 < len then
      none
    else
      some (((incoming.drop 4).take len), ((incoming.drop 4).drop len))

/-- A sequence of frames as queued by successive `queue_send_raw` calls. -/
def frames : List (List Nat) → List Nat
  | [] => []
  | p :: ps => be32 p.length ++ p ++ frames ps

/-- Repeatedly decode whole frames from a buffer (the loop of
`receive_batch_raw`, `channel.rs:135-143`), with explicit fuel. -/
def decodeAllFuel : Nat → List Nat → List (List Nat)
  | 0, _ => []
  | fuel + 1, buf =>
    match decode_from_buffer buf with
    | none => []
    | some (msg, rest) => msg :: decodeAllFuel fuel rest

/-- Decode every whole frame contained in a buffer. -/
def decodeAll (buf : List Nat) : List (List Nat) :=
  decodeAllFuel buf.length buf

theorem be32Read_be32_append (n : Nat) (rest : List Nat) (h : n ≤ u32Max) :
    be32Read (be32 n ++ rest) = n := by
  simp only [be32, be32Read, u32Max] at *
  simp only [List.cons_append, List.getD, List.get?_cons_succ, List.get?_cons_zero,
    Option.getD_some]
  omega

theorem decode_frame (p rest : List Nat) (h : p.length ≤ u32Max) :
    decode_from_buffer (be32 p.length ++ p ++ rest) = some (p, rest) := by
  have hlen : (be32 p.length ++ p ++ rest).length = 4 + p.length + rest.length := by
    simp [be32]; omega
  have hread : be32Read (be32 p.length ++ p ++ rest) = p.length := by
    rw [List.append_assoc]; exact be32Read_be32_append _ _ h
  have hdrop : (be32 p.length ++ p ++ rest).drop 4 = p ++ rest := by
    simp [be32]
  simp only [decode_from_buffer, hlen, hread, hdrop]
  rw [if_neg (by omega), if_neg (by omega)]
  simp

theorem decodeAllFuel_frames (ps : List (List Nat))
    (h : ∀ p ∈ ps, p.length ≤ u32Max) :
    ∀ fuel, (frames ps).length ≤ fuel → decodeAllFuel fuel (frames ps) = ps := by
  induction ps with
  | nil =>
    intro fuel _
    cases fuel with
    | zero => rfl
    | succ f => simp [decodeAllFuel, decode_from_buffer, frames]
  | cons p ps ih =>
    intro fuel hfuel
    have hp : p.length ≤ u32Max := h p (List.mem_cons_self _ _)
    have hps : ∀ q ∈ ps, q.length ≤ u32Max := fun q hq => h q (List.mem_cons_of_mem _ hq)
    have hflen : (frames (p :: ps)).length = 4 + p.length + (frames ps).length := by
      simp [frames, be32]; omega
    cases fuel with
    | zero => omega
    | succ f =>
      have : decode_from_buffer (frames (p :: ps)) = some (p, frames ps) := by
        show decode_from_buffer (be32 p.length ++ p ++ frames ps) = _
        rw [List.append_assoc]
        rw [← List.append_assoc]
        exact decode_frame p (frames ps) hp
      simp only [decodeAllFuel, this]
      rw [ih hps f (by omega)]

theorem decodeAll_frames (ps : List (List Nat))
    (h : ∀ p ∈ ps, p.length ≤ u32Max) : decodeAll (frames ps) = ps :=
  decodeAllFuel_frames ps h _ le_rfl

end Channel

/-- C7: for every payload `p` with `len(p) ≤ u32::MAX`, `queue_send_raw`
appends the frame `u32 big-endian length ‖ payload` to the outgoing buffer,
`decode_from_buffer` applied to the framed bytes returns exactly `p` (with
the trailing bytes left in the buffer), and a concatenation of several
framed payloads decodes to the same sequence of payloads in order. -/
theorem C7_channel_codec_round_trip :
    (∀ outgoing p : List Nat, p.length ≤ Channel.u32Max →
      Channel.queue_send_raw outgoing p =
        (none, outgoing ++ Channel.be32 p.length ++ p)) ∧
    (∀ p rest : List Nat, p.length ≤ Channel.u32Max →
      Channel.decode_from_buffer (Channel.be32 p.length ++ p ++ rest) =
        some (p, rest)) ∧
    (∀ ps : List (List Nat), (∀ p ∈ ps, p.length ≤ Channel.u32Max) →
      Channel.decodeAll (Channel.frames ps) = ps) := by
  refine ⟨fun outgoing p hp => ?_, Channel.decode_frame, Channel.decodeAll_frames⟩
  simp [Channel.queue_send_raw, Nat.not_lt_of_le hp, List.append_assoc]

/-- Witness for C7 at a concrete payload and payload sequence. -/
theorem C7_channel_codec_round_trip_witness :
    Channel.queue_send_raw [9] [1, 2, 3] = (none, [9, 0, 0, 0, 3, 1, 2, 3]) ∧
    Channel.decode_from_buffer [0, 0, 0, 3, 1, 2, 3, 7] = some ([1, 2, 3], [7]) ∧
    Channel.decodeAll (Channel.frames [[1, 2], [], [5]]) = [[1, 2], [], [5]] := by
  refine ⟨?_, ?_, ?_⟩
  · have := C7_channel_codec_round_trip.1 [9] [1, 2, 3] (by decide)
    simpa [Channel.be32] using this
  · have := C7_channel_codec_round_trip.2.1 [1, 2, 3] [7] (by decide)
    simpa [Channel.be32] using this
  · exact C7_channel_codec_round_trip.2.2 [[1, 2], [], [5]] (by decide)

/-- C8: `queue_send_raw` called with a message longer than `u32::MAX` bytes
returns an `InvalidData` error and leaves the outgoing buffer exactly
unchanged: no length prefix or payload bytes are appended. -/
theorem C8_oversized_frame_rejected (outgoing msg : List Nat)
    (h : msg.length > Channel.u32Max) :
    Channel.queue_send_raw outgoing msg =
      (some Channel.ErrorKind.invalidData, outgoing) := by
  simp [Channel.queue_send_raw, h]

/-- Witness for C8: a message of `u32::MAX + 1` zero bytes is rejected and
the buffer `[1, 2]` is left unchanged. -/
theorem C8_oversized_frame_rejected_witness :
    Channel.queue_send_raw [1, 2] (List.replicate (2 ^ 32) 0) =
      (some Channel.ErrorKind.invalidData, [1, 2]) :=
  C8_oversized_frame_rejected [1, 2] (List.replicate (2 ^ 32) 0)
    (by rw [List.length_replicate]; unfold Channel.u32Max; omega)

/-- Modelled from the spec: the `netidx` `Value` tagged union (§3), whose
definition (`netidx` core crate's `subscriber::Value`) is not under `src/`.
Only the tags the claims exercise are included (one unsigned integer width
stands in for the eight integer tags; floats are not needed by any claim).
`vtrue`/`vfalse` are the `True`/`False` tags. -/
inductive Value where
  | vtrue
  | vfalse
  | vnull
  | vok
  | u64 (n : Nat)
  | string (s : String)
  | bytes (b : List Nat)
  | error (s : String)
  deriving DecidableEq, Repr

/-- Modelled from the spec: `Value::cast_to::<Chars>` (§4.A: "`cast_to<T>`
succeeds when representable and fails otherwise (fallible, no panics)").
Strings, integers and booleans have a string representation; a byte blob
need not be valid UTF-8 and is not representable, and `Null`/`Ok`/`Error`
have none (the container's own `to_chars`, `container/mod.rs:432-434`,
substitutes `"null"` exactly because this cast can fail). -/
def Value.castToChars : Value → Option String
  | .string s => some s
  | .u64 n => some (toString n)
  | .vtrue => some "true"
  | .vfalse => some "false"
  | .vnull | .vok | .bytes _ | .error _ => none

namespace Stdfn

/-- `IfEv::eval` (`stdfn.rs:442-464`): the cached-argument evaluator of the
`if` function.  The argument list holds the cached `current` of each child
(`CachedVals`), `none` denoting a child that has not yet produced a value. -/
def ifEval : List (Option Value) → Option Value
  | [cond, b1] =>
    match cond with
    | none => none
    | some .vtrue => b1
    | some .vfalse => none
    | some _ =>
      some (.error "if(predicate, caseIf, [caseElse]): expected boolean condition")
  | [cond, b1, b2] =>
    match cond with
    | none => none
    | some .vtrue => b1
    | some .vfalse => b2
    | some _ =>
      some (.error "if(predicate, caseIf, [caseElse]): expected boolean condition")
  | _ =>
    some (.error "if(predicate, caseIf, [caseElse]): expected at least 2 arguments")

end Stdfn

namespace Stdfn

/-- Helper for `is_power_of_two`, structurally recursive on a fuel
argument so that it evaluates by reduction. -/
def pow2Aux : Nat → Nat → Bool
  | _, 0 => false
  | _, 1 => true
  | 0, _ => false
  | fuel + 1, n => (n % 2 == 0) && pow2Aux fuel (n / 2)

/-- `usize::is_power_of_two` (used by `RpcCall::get_args`,
`stdfn.rs:1390`): true exactly when the number is a positive power of two
(halving reaches 1 through even numbers; `n` itself is enough fuel). -/
def is_power_of_two (n : Nat) : Bool := pow2Aux n n

/-- The keyword-argument pairing loop of `RpcCall::get_args`
(`stdfn.rs:1408-1431`): walk the cached arguments after the rpc path,
pairing a castable name with the following value; `none` is the loop's
`invalid` outcome (a dangling name, a name that does not cast to a string,
or a not-yet-present value in name or value position). -/
def collectKw : List (Option Value) → Option (List (String × Value))
  | [] => some []
  | none :: _ => some []
  | some name :: rest =>
    match name.castToChars with
    | none => none
    | some n =>
      match rest with
      | [] => none
      | none :: _ => none
      | some v :: rest' => (collectKw rest').map (fun l => (n, v) :: l)

/-- `RpcCall::get_args` (`stdfn.rs:1387-1438`).  Input is the cached
argument list (`CachedVals`).  Returns the `invalid` flag as set by the
call, together with the rpc path and keyword arguments when a call should
be issued (`maybe_call` invokes `ctx.call_rpc` exactly when the second
component is `some`). -/
def get_args (args : List (Option Value)) :
    Bool × Option (String × List (String × Value)) :=
  if args.length = 0 ∨ (args.length > 1 ∧ is_power_of_two args.length) then
    (true, none)
  else if args.any (fun v => v.isNone) then
    (false, none)
  else
    match args with
    | [] => (true, none)
    | path :: rest =>
      match path with
      | none => (false, none)
      | some pv =>
        match pv.castToChars with
        | none => (true, none)
        | some name =>
          match collectKw rest with
          | none => (true, none)
          | some kws => (false, some (name, kws))

/-- `RpcCall::current` (`stdfn.rs:1338-1346`): the per-function usage error
while the cached arguments are flagged invalid, `None` otherwise. -/
def rpcCurrent (invalid : Bool) : Option Value :=
  if invalid then
    some (.error
      "call(rpc: string, kwargs): expected at least 1 argument, and an even number of kwargs")
  else
    none

/-- Interleave keyword/value pairs back into the flat cached-argument list
(all positions present). -/
def flattenKw : List (Value × Value) → List (Option Value)
  | [] => []
  | (a, b) :: ps => some a :: some b :: flattenKw ps

theorem pow2Aux_odd (fuel n : Nat) (h : n % 2 = 1) (h1 : 1 < n) :
    pow2Aux fuel n = false := by
  match fuel, n with
  | fuel, 0 => omega
  | fuel, 1 => omega
  | 0, n + 2 => rfl
  | fuel + 1, n + 2 =>
    show (((n + 2) % 2 == 0) && pow2Aux fuel ((n + 2) / 2)) = false
    rw [h]
    rfl

theorem is_power_of_two_odd (n : Nat) (h : n % 2 = 1) (h1 : 1 < n) :
    is_power_of_two n = false :=
  pow2Aux_odd n n h h1

theorem collectKw_odd :
    ∀ l : List (Option Value), (∀ x ∈ l, x.isSome) → l.length % 2 = 1 →
      collectKw l = none
  | [], _, h => by simp at h
  | none :: t, hall, _ => by
    have := hall none (List.mem_cons_self _ _)
    simp at this
  | [some name], _, _ => by
    cases hx : name.castToChars <;> simp [collectKw, hx]
  | some name :: none :: t, hall, _ => by
    have := hall none (by simp)
    simp at this
  | some name :: some v :: rest, hall, hodd => by
    have ih := collectKw_odd rest (fun x hx => hall x (by simp [hx]))
      (by simp at hodd ⊢; omega)
    cases hx : name.castToChars <;> simp [collectKw, hx, ih]

theorem flattenKw_isSome :
    ∀ ps : List (Value × Value), ∀ x ∈ flattenKw ps, x.isSome
  | [], x, hx => by simp [flattenKw] at hx
  | (a, b) :: ps, x, hx => by
    simp only [flattenKw, List.mem_cons] at hx
    rcases hx with rfl | rfl | hx
    · rfl
    · rfl
    · exact flattenKw_isSome ps x hx

theorem flattenKw_length :
    ∀ ps : List (Value × Value), (flattenKw ps).length = 2 * ps.length
  | [] => rfl
  | (a, b) :: ps => by simp [flattenKw, flattenKw_length ps]; omega

theorem collectKw_flattenKw :
    ∀ ps : List (Value × Value), (∀ p ∈ ps, (Value.castToChars p.1).isSome) →
      ∃ kws, collectKw (flattenKw ps) = some kws
  | [], _ => ⟨[], rfl⟩
  | (a, b) :: ps, h => by
    have ha : (Value.castToChars a).isSome := h (a, b) (List.mem_cons_self _ _)
    obtain ⟨na, hna⟩ := Option.isSome_iff_exists.mp ha
    obtain ⟨kws, hkws⟩ :=
      collectKw_flattenKw ps (fun p hp => h p (List.mem_cons_of_mem _ hp))
    exact ⟨(na, b) :: kws, by simp [flattenKw, collectKw, hna, hkws]⟩

theorem get_args_even (args : List (Option Value))
    (hall : ∀ x ∈ args, x.isSome) (heven : args.length % 2 = 0) :
    get_args args = (true, none) := by
  match args, hall with
  | [], _ => rfl
  | none :: rest, hall =>
    have := hall none (List.mem_cons_self _ _)
    simp at this
  | some pv :: rest, hall =>
    have hodd : rest.length % 2 = 1 := by simp at heven ⊢; omega
    have hpos : 0 < rest.length := by omega
    by_cases hp : is_power_of_two (some pv :: rest).length
    · rw [get_args, if_pos (Or.inr ⟨by simp; omega, hp⟩)]
    · have hany : (some pv :: rest).any (fun v => v.isNone) = false := by
        simp only [List.any_eq_false]
        intro x hx
        have := hall x hx
        simp only [Option.isNone_iff_eq_none] at *
        exact Option.ne_none_iff_isSome.mpr this
      rw [get_args, if_neg (by push_neg; exact ⟨by simp, fun _ => hp⟩)]
      rw [hany]
      have hcoll := collectKw_odd rest
        (fun x hx => hall x (List.mem_cons_of_mem _ hx)) hodd
      cases hx : pv.castToChars <;> simp [hx, hcoll]

theorem get_args_valid (pv : Value) (name : String) (ps : List (Value × Value))
    (hname : pv.castToChars = some name)
    (hnames : ∀ p ∈ ps, (Value.castToChars p.1).isSome) :
    ∃ kws, get_args (some pv :: flattenKw ps) = (false, some (name, kws)) := by
  have hlen : (some pv :: flattenKw ps).length = 2 * ps.length + 1 := by
    simp [flattenKw_length]
  have hguard : ¬((some pv :: flattenKw ps).length = 0 ∨
      ((some pv :: flattenKw ps).length > 1 ∧
        is_power_of_two (some pv :: flattenKw ps).length)) := by
    push_neg
    refine ⟨by omega, fun hgt => ?_⟩
    rw [hlen] at hgt ⊢
    simp [is_power_of_two_odd (2 * ps.length + 1) (by omega) (by omega)]
  have hany : (some pv :: flattenKw ps).any (fun v => v.isNone) = false := by
    simp only [List.any_eq_false]
    intro x hx
    rcases List.mem_cons.mp hx with rfl | hx
    · simp
    · have := flattenKw_isSome ps x hx
      simp only [Option.isNone_iff_eq_none] at *
      exact Option.ne_none_iff_isSome.mpr this
  obtain ⟨kws, hkws⟩ := collectKw_flattenKw ps hnames
  refine ⟨kws, ?_⟩
  rw [get_args, if_neg hguard, hany]
  simp [hname, hkws]

end Stdfn

/-- C4 counterexample: the claim says a `call` whose cached arguments (all
present) have the correct arity `1 + 2k` is not flagged invalid, but
`get_args` also sets the `invalid` flag when the rpc-path argument fails to
coerce to a string: a single byte-blob argument has the correct arity `1`
yet is flagged, yielding the usage error and issuing no call. -/
theorem C4_counterexample :
    [some (Value.bytes [200])].length = 1 + 2 * 0 ∧
    (∀ x ∈ [some (Value.bytes [200])], x.isSome) ∧
    Stdfn.get_args [some (Value.bytes [200])] = (true, none) ∧
    Stdfn.rpcCurrent true = some (.error
      "call(rpc: string, kwargs): expected at least 1 argument, and an even number of kwargs") := by
  refine ⟨rfl, by decide, by decide, rfl⟩

/-- C4 (amended): with all cached argument positions present, a `call`
whose arity is not `1 + 2k` (an even number of arguments, or none) is
flagged invalid — `current` yields the per-function usage error — and no
RPC request is issued; a call with correct arity whose rpc path coerces to
a string and whose keyword names all coerce to strings is not flagged
invalid and issues the request. -/
theorem C4_call_arity_error :
    (∀ args : List (Option Value), (∀ x ∈ args, x.isSome) →
      args.length % 2 = 0 →
      Stdfn.get_args args = (true, none) ∧
      Stdfn.rpcCurrent (Stdfn.get_args args).1 = some (.error
        "call(rpc: string, kwargs): expected at least 1 argument, and an even number of kwargs")) ∧
    (∀ (pv : Value) (name : String) (ps : List (Value × Value)),
      pv.castToChars = some name →
      (∀ p ∈ ps, (Value.castToChars p.1).isSome) →
      ∃ kws, Stdfn.get_args (some pv :: Stdfn.flattenKw ps) =
        (false, some (name, kws))) := by
  refine ⟨fun args hall heven => ?_, Stdfn.get_args_valid⟩
  have h := Stdfn.get_args_even args hall heven
  rw [h]
  exact ⟨rfl, rfl⟩

/-- Witness for C4 at concrete inputs: two all-present arguments (wrong
arity) are flagged; `call("/svc", "k", 5)` (correct arity, coercible names)
is accepted. -/
theorem C4_call_arity_error_witness :
    Stdfn.get_args [some (Value.string "/svc"), some (Value.string "k")] =
      (true, none) ∧
    ∃ kws, Stdfn.get_args (some (Value.string "/svc") ::
      Stdfn.flattenKw [(Value.string "k", Value.u64 5)]) =
        (false, some ("/svc", kws)) :=
  ⟨(C4_call_arity_error.1 [some (Value.string "/svc"), some (Value.string "k")]
      (by decide) (by decide)).1,
    C4_call_arity_error.2 (Value.string "/svc") "/svc"
      [(Value.string "k", Value.u64 5)] rfl (by decide)⟩

namespace Stdfn

/-- First `Some` in a list, in order.  This is both the `find_map` over
child currents in `Any`'s init (`stdfn.rs:42`) and the
`filter_map(update).fold(None, first-wins)` in `Any::update`
(`stdfn.rs:58-64`): the leftmost child to produce a value wins. -/
def firstSome : List (Option Value) → Option Value
  | [] => none
  | some v :: _ => some v
  | none :: t => firstSome t

/-- A run of an `Any` node (`stdfn.rs:37-68`).  The children are abstracted
by what their `update` returns on each tick (a list of `Option Value` per
tick, in child order).  `Any::update` computes the first `Some` among the
children's results, stores it in the node state (`self.0 = res`, even when
`res` is `None`), and returns it; `current()` reads the state.  Returns the
per-tick `update` results and the final state (= final `current()`). -/
def anyRun : Option Value → List (List (Option Value)) →
    List (Option Value) × Option Value
  | s, [] => ([], s)
  | _, t :: ts =>
    let res := firstSome t
    let (rets, fin) := anyRun res ts
    (res :: rets, fin)

/-- The last non-`None` element of a list of update results (the value the
claim says `current()` should be latched to). -/
def lastSome (l : List (Option Value)) : Option Value :=
  (l.filterMap id).getLast?

theorem anyRun_returns (init : Option Value) (ticks : List (List (Option Value))) :
    (anyRun init ticks).1 = ticks.map firstSome := by
  induction ticks generalizing init with
  | nil => rfl
  | cons t ts ih => simp [anyRun, ih]

theorem anyRun_final (init : Option Value) (ticks : List (List (Option Value))) :
    (anyRun init ticks).2 = (ticks.map firstSome).getLastD init := by
  induction ticks generalizing init with
  | nil => rfl
  | cons t ts ih =>
    have h2 : (anyRun init (t :: ts)).2 = (anyRun (firstSome t) ts).2 := by
      simp [anyRun]
    rw [h2, ih, List.map_cons, List.getLastD_cons]

end Stdfn

/-- C3 counterexample: the claim says `current()` always equals the last
non-`None` value `update` ever returned, in particular for an `any` node.
But `Any::update` overwrites its state with the result of every tick, even
a `None` one (`self.0 = res.clone()`, `stdfn.rs:65`): after a tick in which
the only child produced `U64(1)` and a second tick in which no child
produced a value, `update` has returned `[Some(U64(1)), None]`, the last
non-`None` value ever returned is `U64(1)`, yet `current()` is `None`. -/
theorem C3_counterexample :
    (Stdfn.anyRun none [[some (Value.u64 1)], [none]]).1 =
      [some (Value.u64 1), none] ∧
    Stdfn.lastSome (Stdfn.anyRun none [[some (Value.u64 1)], [none]]).1 =
      some (Value.u64 1) ∧
    (Stdfn.anyRun none [[some (Value.u64 1)], [none]]).2 = none ∧
    (Stdfn.anyRun none [[some (Value.u64 1)], [none]]).2 ≠
      Stdfn.lastSome (Stdfn.anyRun none [[some (Value.u64 1)], [none]]).1 := by
  refine ⟨rfl, rfl, rfl, by decide⟩

/-- C3 (amended): for an `any` node, every `update` returns the leftmost
child value produced that tick (`None` when no child produced one), and
after any finite event sequence `current()` equals the value returned by
the most recent `update` call — the node's initial value when `update` has
never run.  `current()` is not latched to the last non-`None` return: a
tick in which no child yields a value resets it to `None`. -/
theorem C3_any_current_is_last_update (init : Option Value)
    (ticks : List (List (Option Value))) :
    (Stdfn.anyRun init ticks).1 = ticks.map Stdfn.firstSome ∧
    (Stdfn.anyRun init ticks).2 = (ticks.map Stdfn.firstSome).getLastD init :=
  ⟨Stdfn.anyRun_returns init ticks, Stdfn.anyRun_final init ticks⟩

/-- C9: for `if` with 2 or 3 arguments, a `None` predicate evaluates to
`None` (absence propagated, not an `Error`); a `True` predicate evaluates to
the then-branch; a `False` predicate evaluates to the else-branch (`None`
when only 2 arguments are given); and any non-boolean predicate value,
including an `Error` value, evaluates to an `Error` value. -/
theorem C9_if_semantics (b1 b2 : Option Value) :
    Stdfn.ifEval [none, b1] = none ∧
    Stdfn.ifEval [some .vtrue, b1] = b1 ∧
    Stdfn.ifEval [some .vfalse, b1] = none ∧
    Stdfn.ifEval [none, b1, b2] = none ∧
    Stdfn.ifEval [some .vtrue, b1, b2] = b1 ∧
    Stdfn.ifEval [some .vfalse, b1, b2] = b2 ∧
    (∀ v : Value, v ≠ .vtrue → v ≠ .vfalse →
      (∃ msg, Stdfn.ifEval [some v, b1] = some (.error msg)) ∧
      (∃ msg, Stdfn.ifEval [some v, b1, b2] = some (.error msg))) := by
  refine ⟨rfl, rfl, rfl, rfl, rfl, rfl, fun v ht hf => ?_⟩
  cases v <;> simp_all [Stdfn.ifEval]

/-- Witness for C9 at concrete branches and an `Error` predicate. -/
theorem C9_if_semantics_witness :
    Stdfn.ifEval [none, some (.u64 1)] = none ∧
    Stdfn.ifEval [some .vtrue, some (.u64 1), some (.u64 2)] = some (.u64 1) ∧
    (∃ msg, Stdfn.ifEval [some (.error "boom"), some (.u64 1), some (.u64 2)] =
      some (.error msg)) := by
  obtain ⟨h1, -, -, -, h5, -, h7⟩ := C9_if_semantics (some (.u64 1)) (some (.u64 2))
  exact ⟨h1, h5, (h7 (.error "boom") (by decide) (by decide)).2⟩

namespace Container

/-- A queued `(Path, Value)` ref update (`Lc::ref_updates`). -/
abbrev RefUpd := String × Value

/-- A queued `(Chars, Value)` variable update (`Lc::var_updates`). -/
abbrev VarUpd := String × Value

/-- Drain a list of queued updates in order (one arm of an `update_refs`
iteration, `container/mod.rs:648-666`).  Processing one item — looking up
the affected expression ids and running `update_expr_ids` — is abstracted
by `step`, which threads the rest of the container state `S` and returns
the `(Path, Value)` pushes onto the fresh `ref_updates` and the `(name,
Value)` pushes onto `var_updates` that the processing performed. -/
def drain {S α : Type} (step : S → α → S × List RefUpd × List VarUpd) :
    S → List α → S × List RefUpd × List VarUpd
  | s, [] => (s, [], [])
  | s, a :: l =>
    let (s1, rs1, vs1) := step s a
    let (s2, rs2, vs2) := drain step s1 l
    (s2, rs1 ++ rs2, vs1 ++ vs2)

/-- One iteration of the `update_refs` loop body
(`container/mod.rs:646-667`): `ref_updates` is swapped for an empty pool
vector and drained (pushes during that drain go to the fresh queues, with
variable pushes appended to the still-pending `var_updates`); then
`var_updates` — including the pushes just appended — is swapped and
drained likewise. -/
def updateRefsIter {S : Type} (stepR : S → RefUpd → S × List RefUpd × List VarUpd)
    (stepV : S → VarUpd → S × List RefUpd × List VarUpd)
    (st : S × List RefUpd × List VarUpd) : S × List RefUpd × List VarUpd :=
  let (s1, rs1, vs1) := drain stepR st.1 st.2.1
  let (s2, rs2, vs2) := drain stepV s1 (st.2.2 ++ vs1)
  (s2, rs1 ++ rs2, vs2)

/-- The `while n < 10 && (non-empty)` loop of `Container::update_refs`
(`container/mod.rs:643-668`), with the remaining iteration budget explicit.
Returns the final state together with the number of iterations executed. -/
def updateRefsLoop {S : Type} (stepR : S → RefUpd → S × List RefUpd × List VarUpd)
    (stepV : S → VarUpd → S × List RefUpd × List VarUpd) :
    Nat → S × List RefUpd × List VarUpd → (S × List RefUpd × List VarUpd) × Nat
  | 0, st => (st, 0)
  | fuel + 1, st =>
    if st.2.1 = [] ∧ st.2.2 = [] then
      (st, 0)
    else
      let (stf, m) := updateRefsLoop stepR stepV fuel (updateRefsIter stepR stepV st)
      (stf, m + 1)

/-- `Container::update_refs` (`container/mod.rs:639-673`): run the loop
with budget 10, then, if either queue is still non-empty, post one
`LcEvent::Refs` self-event (`container/mod.rs:669-672`).  The result
records the final state, the number of iterations, and how many
`LcEvent::Refs` events were posted by this call. -/
def update_refs {S : Type} (stepR : S → RefUpd → S × List RefUpd × List VarUpd)
    (stepV : S → VarUpd → S × List RefUpd × List VarUpd)
    (st : S × List RefUpd × List VarUpd) :
    (S × List RefUpd × List VarUpd) × Nat × Nat :=
  let (stf, m) := updateRefsLoop stepR stepV 10 st
  (stf, m, if stf.2.1 = [] ∧ stf.2.2 = [] then 0 else 1)

theorem updateRefsLoop_le {S : Type}
    (stepR : S → RefUpd → S × List RefUpd × List VarUpd)
    (stepV : S → VarUpd → S × List RefUpd × List VarUpd) :
    ∀ (fuel : Nat) (st : S × List RefUpd × List VarUpd),
      (updateRefsLoop stepR stepV fuel st).2 ≤ fuel
  | 0, _ => le_rfl
  | fuel + 1, st => by
    by_cases h : st.2.1 = [] ∧ st.2.2 = []
    · simp [updateRefsLoop, h]
    · have ih := updateRefsLoop_le stepR stepV fuel (updateRefsIter stepR stepV st)
      simp only [updateRefsLoop, if_neg h]
      omega

end Container

/-- C5: `update_refs` terminates on every finite queue state, whatever
processing the drained items triggers: the loop performs at most 10
iterations, each draining the pending `ref_updates` and then the pending
`var_updates`; after the loop, either both queues are empty and no
`LcEvent::Refs` is posted, or exactly one `LcEvent::Refs` self-event is
posted so that processing resumes on a later tick. -/
theorem C5_update_refs_bounded {S : Type}
    (stepR : S → Container.RefUpd → S × List Container.RefUpd × List Container.VarUpd)
    (stepV : S → Container.VarUpd → S × List Container.RefUpd × List Container.VarUpd)
    (st : S × List Container.RefUpd × List Container.VarUpd) :
    (Container.update_refs stepR stepV st).2.1 ≤ 10 ∧
    (((Container.update_refs stepR stepV st).1.2.1 = [] ∧
      (Container.update_refs stepR stepV st).1.2.2 = [] ∧
      (Container.update_refs stepR stepV st).2.2 = 0) ∨
     (Container.update_refs stepR stepV st).2.2 = 1) := by
  constructor
  · have h := Container.updateRefsLoop_le stepR stepV 10 st
    simp only [Container.update_refs]
    exact h
  · simp only [Container.update_refs]
    by_cases h : (Container.updateRefsLoop stepR stepV 10 st).1.2.1 = [] ∧
        (Container.updateRefsLoop stepR stepV 10 st).1.2.2 = []
    · exact Or.inl ⟨h.1, h.2, by simp [h.1, h.2]⟩
    · right
      simp only [if_neg h]

namespace Container

/-- Expression identifiers (`ExprId`, fresh per parse). -/
abbrev ExprId := Nat

/-- Subscription identifiers (`SubId`). -/
abbrev SubId := Nat

/-- Paths are modelled as their character sequences (netidx `Path` derefs
to `str`; Rust compares and slices `str` bytewise, and for valid UTF-8 the
bytewise order coincides with the codepoint order used here). -/
abbrev Path := List Char

/-- Shorthand for writing a path literal. -/
def pstr (s : String) : Path := s.toList

/-- The per-expression forward-reference record `Refs`
(`container/mod.rs:54-70`): the keys this expression occupies in each of
the four reverse maps. -/
structure Refs where
  refs : Finset Path
  rpcs : Finset Path
  subs : Finset SubId
  vars : Finset String
  deriving DecidableEq

/-- `Refs::new()`: four empty sets. -/
def Refs.new : Refs := ⟨∅, ∅, ∅, ∅⟩

/-- The five index maps of `Lc` (`container/mod.rs:119-134`), with a
hash-map modelled as a function to `Option` — `none` is an absent key,
`some s` a key present with set `s` (so an orphaned key with an empty set
is representable and distinct from an absent key). -/
structure Lc where
  var : String → Option (Finset ExprId)
  sub : SubId → Option (Finset ExprId)
  rpc : Path → Option (Finset ExprId)
  refs : Path → Option (Finset ExprId)
  forward_refs : ExprId → Option Refs

/-- `remove_eid_from_set` (`container/mod.rs:136-148`): if the key is
occupied, remove the expression id from its set and delete the entry when
the set becomes empty; a vacant key is left untouched. -/
def remove_eid_from_set {K : Type} [DecidableEq K]
    (tbl : K → Option (Finset ExprId)) (key : K) (expr_id : ExprId) :
    K → Option (Finset ExprId) :=
  fun k =>
    if k = key then
      match tbl key with
      | none => none
      | some s => if s.erase expr_id = ∅ then none else some (s.erase expr_id)
    else tbl k

/-- The reverse-map half of a registration:
`tbl.entry(key).or_insert_with(empty set).insert(ref_id)` as used by
`durable_subscribe`/`ref_var`/`call_rpc` (`container/mod.rs:205-246`) and
`Ref::set_ref` (`container/mod.rs:333-345`). -/
def addToSet {K : Type} [DecidableEq K]
    (tbl : K → Option (Finset ExprId)) (key : K) (e : ExprId) :
    K → Option (Finset ExprId) :=
  fun k => if k = key then some (insert e ((tbl key).getD ∅)) else tbl k

/-- `forward_refs.entry(e).or_insert_with(Refs::new)` followed by an
insertion into one bucket. -/
def fwdUpd (tbl : ExprId → Option Refs) (e : ExprId) (f : Refs → Refs) :
    ExprId → Option Refs :=
  fun i => if i = e then some (f ((tbl e).getD Refs.new)) else tbl i

/-- One dependency registration performed on behalf of expression `e`: the
mirror-pair insertions done by `Ctx::durable_subscribe` (sub map),
`Ctx::ref_var` (var map), `Ctx::call_rpc` (rpc map) and the insertion half
of `Ref::set_ref` (refs map). -/
inductive RegOp where
  | sub (id : SubId)
  | var (name : String)
  | rpc (path : Path)
  | ref (path : Path)
  deriving DecidableEq

/-- Apply one registration for expression `e` (`container/mod.rs:197-249`,
`333-346`): insert into the reverse map and mirror the key into
`forward_refs[e]`. -/
def applyReg (e : ExprId) (st : Lc) : RegOp → Lc
  | .sub i =>
    { st with sub := addToSet st.sub i e,
              forward_refs := fwdUpd st.forward_refs e
                (fun r => { r with subs := insert i r.subs }) }
  | .var n =>
    { st with var := addToSet st.var n e,
              forward_refs := fwdUpd st.forward_refs e
                (fun r => { r with vars := insert n r.vars }) }
  | .rpc p =>
    { st with rpc := addToSet st.rpc p e,
              forward_refs := fwdUpd st.forward_refs e
                (fun r => { r with rpcs := insert p r.rpcs }) }
  | .ref p =>
    { st with refs := addToSet st.refs p e,
              forward_refs := fwdUpd st.forward_refs e
                (fun r => { r with refs := insert p r.refs }) }

/-- Apply a sequence of registrations for expression `e`. -/
def applyRegs (e : ExprId) (st : Lc) : List RegOp → Lc
  | [] => st
  | op :: ops => applyRegs e (applyReg e st op) ops

/-- The loop `for key in bucket { remove_eid_from_set(&mut map, key, &e) }`
of `Lc::unref`: the bucket's keys are pairwise distinct, so the iterated
removals act independently and are embedded pointwise. -/
def removeAll {K : Type} [DecidableEq K]
    (tbl : K → Option (Finset ExprId)) (keys : Finset K) (e : ExprId) :
    K → Option (Finset ExprId) :=
  fun k => if k ∈ keys then remove_eid_from_set tbl k e k else tbl k

/-- `Lc::unref` (`container/mod.rs:176-191`): take `forward_refs[e]` out of
the map and remove `e` from the reverse-map entry of every key it lists,
deleting entries whose set becomes empty. -/
def unref (st : Lc) (e : ExprId) : Lc :=
  match st.forward_refs e with
  | none => st
  | some r =>
    { var := removeAll st.var r.vars e,
      sub := removeAll st.sub r.subs e,
      rpc := removeAll st.rpc r.rpcs e,
      refs := removeAll st.refs r.refs e,
      forward_refs := fun i => if i = e then none else st.forward_refs i }

/-- Expression `e` is unregistered in `st`: it has no forward record and
appears in no reverse-map set. -/
def Lc.fresh (st : Lc) (e : ExprId) : Prop :=
  st.forward_refs e = none ∧
  (∀ k s, st.var k = some s → e ∉ s) ∧
  (∀ k s, st.sub k = some s → e ∉ s) ∧
  (∀ k s, st.rpc k = some s → e ∉ s) ∧
  (∀ k s, st.refs k = some s → e ∉ s)

/-- No reverse map holds an orphaned key (a key bound to the empty set). -/
def Lc.noOrphans (st : Lc) : Prop :=
  (∀ k, st.var k ≠ some ∅) ∧ (∀ k, st.sub k ≠ some ∅) ∧
  (∀ k, st.rpc k ≠ some ∅) ∧ (∀ k, st.refs k ≠ some ∅)

/-- The `Lc` state consisting only of empty maps. -/
def Lc.empty : Lc :=
  ⟨fun _ => none, fun _ => none, fun _ => none, fun _ => none, fun _ => none⟩

end Container

namespace Container

/-- The state reached from `st` after registering, for expression `e`, the
keys collected in `R`: each reverse map gains `e` under exactly the keys of
the matching bucket, and `forward_refs[e]` is `R`. -/
def addKeys (st : Lc) (e : ExprId) (R : Refs) : Lc :=
  { var := fun k => if k ∈ R.vars then some (insert e ((st.var k).getD ∅)) else st.var k,
    sub := fun k => if k ∈ R.subs then some (insert e ((st.sub k).getD ∅)) else st.sub k,
    rpc := fun k => if k ∈ R.rpcs then some (insert e ((st.rpc k).getD ∅)) else st.rpc k,
    refs := fun k => if k ∈ R.refs then some (insert e ((st.refs k).getD ∅)) else st.refs k,
    forward_refs := fun i => if i = e then some R else st.forward_refs i }

/-- The forward-reference key a registration records. -/
def RegOp.key : RegOp → Refs → Refs
  | .sub i, r => { r with subs := insert i r.subs }
  | .var n, r => { r with vars := insert n r.vars }
  | .rpc p, r => { r with rpcs := insert p r.rpcs }
  | .ref p, r => { r with refs := insert p r.refs }

theorem Lc.ext {a b : Lc} (hvar : a.var = b.var) (hsub : a.sub = b.sub)
    (hrpc : a.rpc = b.rpc) (hrefs : a.refs = b.refs)
    (hfwd : a.forward_refs = b.forward_refs) : a = b := by
  cases a; cases b; simp_all

theorem applyReg_addKeys (st : Lc) (e : ExprId) (R : Refs) (op : RegOp) :
    applyReg e (addKeys st e R) op = addKeys st e (op.key R) := by
  cases op with
  | var n =>
    refine Lc.ext (funext fun k => ?_) rfl rfl rfl (funext fun i => ?_)
    · by_cases hk : k = n
      · subst hk
        by_cases hm : k ∈ R.vars <;>
          simp [applyReg, addToSet, addKeys, RegOp.key, hm, Finset.insert_idem]
      · simp [applyReg, addToSet, addKeys, RegOp.key, hk, Finset.mem_insert]
    · by_cases hi : i = e <;> simp [applyReg, fwdUpd, addKeys, RegOp.key, hi]
  | sub n =>
    refine Lc.ext rfl (funext fun k => ?_) rfl rfl (funext fun i => ?_)
    · by_cases hk : k = n
      · subst hk
        by_cases hm : k ∈ R.subs <;>
          simp [applyReg, addToSet, addKeys, RegOp.key, hm, Finset.insert_idem]
      · simp [applyReg, addToSet, addKeys, RegOp.key, hk, Finset.mem_insert]
    · by_cases hi : i = e <;> simp [applyReg, fwdUpd, addKeys, RegOp.key, hi]
  | rpc n =>
    refine Lc.ext rfl rfl (funext fun k => ?_) rfl (funext fun i => ?_)
    · by_cases hk : k = n
      · subst hk
        by_cases hm : k ∈ R.rpcs <;>
          simp [applyReg, addToSet, addKeys, RegOp.key, hm, Finset.insert_idem]
      · simp [applyReg, addToSet, addKeys, RegOp.key, hk, Finset.mem_insert]
    · by_cases hi : i = e <;> simp [applyReg, fwdUpd, addKeys, RegOp.key, hi]
  | ref n =>
    refine Lc.ext rfl rfl rfl (funext fun k => ?_) (funext fun i => ?_)
    · by_cases hk : k = n
      · subst hk
        by_cases hm : k ∈ R.refs <;>
          simp [applyReg, addToSet, addKeys, RegOp.key, hm, Finset.insert_idem]
      · simp [applyReg, addToSet, addKeys, RegOp.key, hk, Finset.mem_insert]
    · by_cases hi : i = e <;> simp [applyReg, fwdUpd, addKeys, RegOp.key, hi]

theorem applyReg_first (st : Lc) (e : ExprId) (op : RegOp)
    (hfwd : st.forward_refs e = none) :
    applyReg e st op = addKeys st e (op.key Refs.new) := by
  cases op with
  | var n =>
    refine Lc.ext (funext fun k => ?_) (funext fun k => ?_) (funext fun k => ?_)
      (funext fun k => ?_) (funext fun i => ?_)
    · by_cases hk : k = n <;>
        simp [applyReg, addToSet, addKeys, RegOp.key, Refs.new, hk]
    · simp [applyReg, addKeys, RegOp.key, Refs.new]
    · simp [applyReg, addKeys, RegOp.key, Refs.new]
    · simp [applyReg, addKeys, RegOp.key, Refs.new]
    · by_cases hi : i = e <;>
        simp [applyReg, fwdUpd, addKeys, RegOp.key, Refs.new, hi, hfwd]
  | sub n =>
    refine Lc.ext (funext fun k => ?_) (funext fun k => ?_) (funext fun k => ?_)
      (funext fun k => ?_) (funext fun i => ?_)
    · simp [applyReg, addKeys, RegOp.key, Refs.new]
    · by_cases hk : k = n <;>
        simp [applyReg, addToSet, addKeys, RegOp.key, Refs.new, hk]
    · simp [applyReg, addKeys, RegOp.key, Refs.new]
    · simp [applyReg, addKeys, RegOp.key, Refs.new]
    · by_cases hi : i = e <;>
        simp [applyReg, fwdUpd, addKeys, RegOp.key, Refs.new, hi, hfwd]
  | rpc n =>
    refine Lc.ext (funext fun k => ?_) (funext fun k => ?_) (funext fun k => ?_)
      (funext fun k => ?_) (funext fun i => ?_)
    · simp [applyReg, addKeys, RegOp.key, Refs.new]
    · simp [applyReg, addKeys, RegOp.key, Refs.new]
    · by_cases hk : k = n <;>
        simp [applyReg, addToSet, addKeys, RegOp.key, Refs.new, hk]
    · simp [applyReg, addKeys, RegOp.key, Refs.new]
    · by_cases hi : i = e <;>
        simp [applyReg, fwdUpd, addKeys, RegOp.key, Refs.new, hi, hfwd]
  | ref n =>
    refine Lc.ext (funext fun k => ?_) (funext fun k => ?_) (funext fun k => ?_)
      (funext fun k => ?_) (funext fun i => ?_)
    · simp [applyReg, addKeys, RegOp.key, Refs.new]
    · simp [applyReg, addKeys, RegOp.key, Refs.new]
    · simp [applyReg, addKeys, RegOp.key, Refs.new]
    · by_cases hk : k = n <;>
        simp [applyReg, addToSet, addKeys, RegOp.key, Refs.new, hk]
    · by_cases hi : i = e <;>
        simp [applyReg, fwdUpd, addKeys, RegOp.key, Refs.new, hi, hfwd]

theorem applyRegs_addKeys (st : Lc) (e : ExprId) :
    ∀ (ops : List RegOp) (R : Refs),
      applyRegs e (addKeys st e R) ops = addKeys st e (ops.foldl (fun r op => op.key r) R)
  | [], R => rfl
  | op :: ops, R => by
    show applyRegs e (applyReg e (addKeys st e R) op) ops = _
    rw [applyReg_addKeys, applyRegs_addKeys st e ops (op.key R)]
    rfl

theorem removeAll_addKeys_eq {K : Type} [DecidableEq K]
    (tbl : K → Option (Finset ExprId)) (keys : Finset K) (e : ExprId)
    (hfresh : ∀ k s, tbl k = some s → e ∉ s) (hwf : ∀ k, tbl k ≠ some ∅) :
    removeAll (fun k => if k ∈ keys then some (insert e ((tbl k).getD ∅)) else tbl k)
      keys e = tbl := by
  funext k
  by_cases hk : k ∈ keys
  · cases h : tbl k with
    | none => simp [removeAll, remove_eid_from_set, hk, h]
    | some s =>
      have hes : e ∉ s := hfresh k s h
      have hne : s ≠ ∅ := fun hs => hwf k (by rw [h, hs])
      simp [removeAll, remove_eid_from_set, hk, h,
        Finset.erase_eq_of_not_mem hes, hne]
  · simp [removeAll, hk]

theorem unref_addKeys (st : Lc) (e : ExprId) (R : Refs)
    (hfresh : st.fresh e) (hwf : st.noOrphans) :
    unref (addKeys st e R) e = st := by
  obtain ⟨hfwd, hvar, hsub, hrpc, hrefs⟩ := hfresh
  obtain ⟨wvar, wsub, wrpc, wrefs⟩ := hwf
  have hget : (addKeys st e R).forward_refs e = some R := by simp [addKeys]
  rw [unref, hget]
  refine Lc.ext ?_ ?_ ?_ ?_ (funext fun i => ?_)
  · exact removeAll_addKeys_eq st.var R.vars e hvar wvar
  · exact removeAll_addKeys_eq st.sub R.subs e hsub wsub
  · exact removeAll_addKeys_eq st.rpc R.rpcs e hrpc wrpc
  · exact removeAll_addKeys_eq st.refs R.refs e hrefs wrefs
  · by_cases hi : i = e <;> simp [addKeys, hi, hfwd]

end Container

/-- C6: for every expression id `e`, `unref(e)` removes `e` from the set
stored under each key listed in `forward_refs[e]` in the matching reverse
map, deletes any reverse-map set that becomes empty, and removes
`forward_refs[e]`; hence registering any sequence of dependencies for a
previously unregistered expression and then calling `unref` on its id
returns all five index maps exactly to their pre-registration state, with
no orphaned keys. -/
theorem C6_unref_restores_indices (st : Container.Lc) (e : Container.ExprId)
    (ops : List Container.RegOp) (hfresh : st.fresh e)
    (hwf : st.noOrphans) :
    Container.unref (Container.applyRegs e st ops) e = st := by
  cases ops with
  | nil =>
    show Container.unref st e = st
    rw [Container.unref, hfresh.1]
  | cons op rest =>
    show Container.unref (Container.applyRegs e (Container.applyReg e st op) rest) e = st
    rw [Container.applyReg_first st e op hfresh.1,
      Container.applyRegs_addKeys st e rest (op.key Container.Refs.new)]
    exact Container.unref_addKeys st e _ hfresh hwf

/-- Witness for C6: registering a variable, a ref path, a subscription and
an rpc path for expression 5 on the empty index and then unrefing 5
restores the empty index. -/
theorem C6_unref_restores_indices_witness :
    Container.unref (Container.applyRegs 5 Container.Lc.empty
      [Container.RegOp.var "x", Container.RegOp.ref (Container.pstr "/a"),
       Container.RegOp.sub 3, Container.RegOp.rpc (Container.pstr "/svc")]) 5 =
      Container.Lc.empty :=
  C6_unref_restores_indices Container.Lc.empty 5
    [Container.RegOp.var "x", Container.RegOp.ref (Container.pstr "/a"),
     Container.RegOp.sub 3, Container.RegOp.rpc (Container.pstr "/svc")]
    ⟨rfl, fun _ _ h => Option.noConfusion h, fun _ _ h => Option.noConfusion h,
      fun _ _ h => Option.noConfusion h, fun _ _ h => Option.noConfusion h⟩
    ⟨fun _ h => Option.noConfusion h, fun _ h => Option.noConfusion h,
      fun _ h => Option.noConfusion h, fun _ h => Option.noConfusion h⟩

namespace Container

/-- `check_path` (`container/mod.rs:436-441`): reject a path unless it
starts with the base path (a string-prefix test: `path.starts_with`). -/
def check_path (base_path : Path) (path : Path) : Except String Path :=
  if base_path.isPrefixOf path then .ok path else .error "non root path"

/-- Split a character sequence on a separator (`str::split`-style: an
empty input yields one empty field). -/
def splitOnSep (sep : Char) : List Char → List (List Char)
  | [] => [[]]
  | c :: rest =>
    let r := splitOnSep sep rest
    if c = sep then [] :: r
    else
      match r with
      | [] => [[c]]
      | h :: t => (c :: h) :: t

/-- Join fields with a separator (inverse of `splitOnSep`). -/
def joinSep (sep : Char) : List (List Char) → List Char
  | [] => []
  | [f] => f
  | f :: fs => f ++ sep :: joinSep sep fs

/-- Modelled from the spec: `Path::basename` (§3, "string ops with `/` as
separator"; the netidx `Path` implementation is not under `src/`): the part
after the last separator, `none` when there is no component. -/
def basename (p : Path) : Option Path :=
  match (splitOnSep '/' p).getLast? with
  | none => none
  | some [] => none
  | some s => some s

/-- Modelled from the spec: `Path::dirname` (§3): the part before the last
separator, `none` for the root or a separator-free string. -/
def dirname (p : Path) : Option Path :=
  match splitOnSep '/' p with
  | [] => none
  | [_] => none
  | [[], _] => if p = pstr "/" then none else some (pstr "/")
  | ls => some (joinSep '/' ls.dropLast)

/-- Modelled from the spec: `Path::is_parent(a, b)` (§3): `b` equals `a` or
lies strictly below it. -/
def is_parent (parent child : Path) : Bool :=
  parent == child ||
    (if parent = pstr "/" then parent else parent ++ ['/']).isPrefixOf child

/-- One mutating operation on the embedded database.  The db layer
(`container/db.rs`) is not under `src/`; its API is taken from the spec
(§6) and modelled as a journal of the operations the container handed to
it, which is all the path-discipline claim needs. -/
inductive DbOp where
  | remove (p : Path)
  | removeSubtree (p : Path)
  | setLocked (p : Path)
  | setUnlocked (p : Path)
  | setData (ifexists : Bool) (p : Path) (v : Value)
  | setFormula (p : Path) (v : Value)
  | setOnWrite (p : Path) (v : Value)
  | createSheet (p : Path) (rows cols : Nat) (lock : Bool)
  | createTable (p : Path) (rows cols : List String) (lock : Bool)
  deriving DecidableEq, Repr

/-- The db journal: the sequence of mutating calls made so far. -/
abbrev Db := List DbOp

/-- `Container::delete_path` (`container/mod.rs:928-939`). -/
def delete_path (base : Path) (db : Db) (path : Path) : Except String Db := do
  let path ← check_path base path
  let bn := basename path
  if bn = some (pstr ".formula") ∨ bn = some (pstr ".on-write") then
    match dirname path with
    | some d => return db ++ [.remove d]
    | none => return db
  else
    return db ++ [.remove path]

/-- `Container::delete_subtree` (`container/mod.rs:941-945`). -/
def delete_subtree (base : Path) (db : Db) (path : Path) : Except String Db := do
  let path ← check_path base path
  return db ++ [.removeSubtree path]

/-- `Container::lock_subtree` (`container/mod.rs:947-951`). -/
def lock_subtree (base : Path) (db : Db) (path : Path) : Except String Db := do
  let path ← check_path base path
  return db ++ [.setLocked path]

/-- `Container::unlock_subtree` (`container/mod.rs:953-957`). -/
def unlock_subtree (base : Path) (db : Db) (path : Path) : Except String Db := do
  let path ← check_path base path
  return db ++ [.setUnlocked path]

/-- `Container::set_data` (`container/mod.rs:959-963`). -/
def set_data (base : Path) (db : Db) (path : Path) (value : Value) :
    Except String Db := do
  let path ← check_path base path
  return db ++ [.setData true path value]

/-- `Container::set_formula` (`container/mod.rs:965-979`). -/
def set_formula (base : Path) (db : Db) (path : Path)
    (formula on_write : Option String) : Except String Db := do
  let path ← check_path base path
  let db := match formula with
    | some f => db ++ [.setFormula path (Value.string f)]
    | none => db
  let db := match on_write with
    | some w => db ++ [.setOnWrite path (Value.string w)]
    | none => db
  return db

/-- `Container::create_sheet` (`container/mod.rs:981-990`): forwards to the
db with no path check. -/
def create_sheet (db : Db) (path : Path) (rows columns : Nat) (lock : Bool) :
    Except String Db :=
  .ok (db ++ [.createSheet path rows columns lock])

/-- `Container::create_table` (`container/mod.rs:992-1001`): forwards to
the db with no path check. -/
def create_table (db : Db) (path : Path) (rows columns : List String)
    (lock : Bool) : Except String Db :=
  .ok (db ++ [.createTable path rows columns lock])

/-- `RpcRequestKind` (the container RPC API, spec §6; `rpcs.rs` is not
under `src/`, the variants and payloads are those matched by
`process_rpc_request`, `container/mod.rs:1010-1033`). -/
inductive RpcRequestKind where
  | delete (path : Path)
  | deleteSubtree (path : Path)
  | lockSubtree (path : Path)
  | unlockSubtree (path : Path)
  | setData (path : Path) (value : Value)
  | setFormula (path : Path) (formula on_write : Option String)
  | createSheet (path : Path) (rows columns : Nat) (lock : Bool)
  | createTable (path : Path) (rows columns : List String) (lock : Bool)
  deriving DecidableEq

/-- `Container::process_rpc_request` (`container/mod.rs:1003-1034`):
dispatch the request, replying `Value::Ok` on success and
`Value::Error(msg)` on failure; the db journal is returned alongside. -/
def process_rpc_request (base : Path) (db : Db) (req : RpcRequestKind) :
    Value × Db :=
  let res := match req with
    | .delete p => delete_path base db p
    | .deleteSubtree p => delete_subtree base db p
    | .lockSubtree p => lock_subtree base db p
    | .unlockSubtree p => unlock_subtree base db p
    | .setData p v => set_data base db p v
    | .setFormula p f w => set_formula base db p f w
    | .createSheet p r c l => create_sheet db p r c l
    | .createTable p r c l => create_table db p r c l
  match res with
  | .ok db' => (Value.vok, db')
  | .error e => (Value.error e, db)

/-- The path named by a container RPC request. -/
def RpcRequestKind.path : RpcRequestKind → Path
  | .delete p | .deleteSubtree p | .lockSubtree p | .unlockSubtree p => p
  | .setData p _ => p
  | .setFormula p _ _ => p
  | .createSheet p _ _ _ => p
  | .createTable p _ _ _ => p

/-- The six request kinds whose handler calls `check_path`. -/
def RpcRequestKind.checked : RpcRequestKind → Bool
  | .delete _ | .deleteSubtree _ | .lockSubtree _ | .unlockSubtree _
  | .setData _ _ | .setFormula _ _ _ => true
  | .createSheet _ _ _ _ | .createTable _ _ _ _ => false

end Container

/-- C1 counterexample: the claim requires every mutating container RPC to
reject paths that are not descendants of `base_path`, leaving the db
unchanged.  But (i) `Container::create_sheet`/`create_table` never call
`check_path`: a `CreateSheet` for `/other` under base `/base` replies `Ok`
and reaches the db; and (ii) `check_path` is a string-prefix test, so
`SetData` on `/based` — not a descendant of `/base` — also replies `Ok`
and mutates the db. -/
theorem C1_counterexample :
    Container.is_parent (Container.pstr "/base") (Container.pstr "/other") = false ∧
    Container.process_rpc_request (Container.pstr "/base") []
        (.createSheet (Container.pstr "/other") 1 1 false) =
      (Value.vok, [Container.DbOp.createSheet (Container.pstr "/other") 1 1 false]) ∧
    Container.is_parent (Container.pstr "/base") (Container.pstr "/based") = false ∧
    Container.process_rpc_request (Container.pstr "/base") []
        (.setData (Container.pstr "/based") (Value.u64 1)) =
      (Value.vok, [Container.DbOp.setData true (Container.pstr "/based") (Value.u64 1)]) := by
  refine ⟨by decide, by decide, by decide, by decide⟩

/-- C1 (amended): for the six container RPCs whose handler calls
`check_path` (`Delete`, `DeleteSubtree`, `LockSubtree`, `UnlockSubtree`,
`SetData`, `SetFormula`), a request whose path does not start with
`base_path` is answered with an `Error` reply and the database is left
exactly unchanged; contrapositively, these handlers reach the database only
for paths that start with `base_path`.  `CreateSheet` and `CreateTable`
forward their path to the database without this check. -/
theorem except_error_bind {α β : Type} (e : String) (f : α → Except String β) :
    (Except.error e >>= f) = Except.error e := rfl

theorem C1_path_discipline (base : Container.Path) (db : Container.Db)
    (req : Container.RpcRequestKind) (hchk : req.checked = true) :
    (¬ base.isPrefixOf req.path = true →
      Container.process_rpc_request base db req =
        (Value.error "non root path", db)) ∧
    ((Container.process_rpc_request base db req).2 ≠ db →
      base.isPrefixOf req.path = true) := by
  have main : ¬ base.isPrefixOf req.path = true →
      Container.process_rpc_request base db req =
        (Value.error "non root path", db) := by
    intro hpre
    cases req with
    | delete p =>
      simp only [Container.RpcRequestKind.path] at hpre
      simp [Container.process_rpc_request, Container.delete_path,
        Container.check_path, hpre, except_error_bind]
    | deleteSubtree p =>
      simp only [Container.RpcRequestKind.path] at hpre
      simp [Container.process_rpc_request, Container.delete_subtree,
        Container.check_path, hpre, except_error_bind]
    | lockSubtree p =>
      simp only [Container.RpcRequestKind.path] at hpre
      simp [Container.process_rpc_request, Container.lock_subtree,
        Container.check_path, hpre, except_error_bind]
    | unlockSubtree p =>
      simp only [Container.RpcRequestKind.path] at hpre
      simp [Container.process_rpc_request, Container.unlock_subtree,
        Container.check_path, hpre, except_error_bind]
    | setData p v =>
      simp only [Container.RpcRequestKind.path] at hpre
      simp [Container.process_rpc_request, Container.set_data,
        Container.check_path, hpre, except_error_bind]
    | setFormula p f w =>
      simp only [Container.RpcRequestKind.path] at hpre
      simp [Container.process_rpc_request, Container.set_formula,
        Container.check_path, hpre, except_error_bind]
    | createSheet p r c l => simp [Container.RpcRequestKind.checked] at hchk
    | createTable p r c l => simp [Container.RpcRequestKind.checked] at hchk
  refine ⟨main, fun hne => ?_⟩
  by_cases hpre : base.isPrefixOf req.path = true
  · exact hpre
  · exact absurd (by rw [main hpre]) hne

/-- Witness for C1 at a concrete rejected request: `Delete("/x")` under
base `/base` replies with the error and leaves the (empty) journal
unchanged. -/
theorem C1_path_discipline_witness :
    Container.process_rpc_request (Container.pstr "/base") []
        (.delete (Container.pstr "/x")) =
      (Value.error "non root path", []) :=
  (C1_path_discipline (Container.pstr "/base") []
    (.delete (Container.pstr "/x")) rfl).1 (by decide)

namespace Container

/-- A database row (`db::Datum`, spec §6: each key holds data or a
formula/on-write pair; `db.rs` is not under `src/`). -/
inductive Datum where
  | data (v : Value)
  | formula (f w : Value)
  deriving DecidableEq

/-- Strict bytewise lexicographic order on paths (the `Ord` used by the
`BTreeSet<Path>` holding the locked set). -/
def lexLt : List Char → List Char → Bool
  | [], [] => false
  | [], _ :: _ => true
  | _ :: _, [] => false
  | a :: s, b :: t => if a < b then true else if a = b then lexLt s t else false

/-- Non-strict version of `lexLt`. -/
def lexLe (a b : List Char) : Bool := lexLt a b || a == b

/-- `locked.range((Unbounded, Included(path))).next_back()`
(`container/mod.rs:804-811`): the greatest locked entry that is ≤ the
requested path in lexicographic order. -/
def maxLe (locked : List Path) (path : Path) : Option Path :=
  (locked.filter (fun l => lexLe l path)).foldl
    (fun acc l =>
      match acc with
      | none => some l
      | some m => if lexLt m l then some l else some m) none

/-- The action `Container::process_publish_request` takes (always followed
by the reply).  `.createNull` stands for the pair
`db.set_data(false, path, Value::Null)` then `publish_data(path, Null)`
(`container/mod.rs:813-819`); `.publishExisting v` for
`publish_data(path, v)`. -/
inductive PublishAction where
  | badPath
  | reservedName
  | publishExisting (v : Value)
  | panicFormula
  | lockedIgnore
  | createNull
  deriving DecidableEq, Repr

/-- `Container::process_publish_request` (`container/mod.rs:789-827`).
`lookup` is the db lookup with the `Err(_)` and `Ok(None)` cases folded
together, exactly as the source's `Err(_) | Ok(None)` arm treats them. -/
def process_publish_request (base : Path) (locked : List Path)
    (lookup : Path → Option Datum) (path : Path) : PublishAction :=
  match check_path base path with
  | .error _ => .badPath
  | .ok path =>
    let name := basename path
    if name = some (pstr ".formula") ∨ name = some (pstr ".on-write") then
      .reservedName
    else
      match lookup path with
      | some (.data v) => .publishExisting v
      | some (.formula _ _) => .panicFormula
      | none =>
        let lockd := match maxLe locked path with
          | some p => is_parent p path
          | none => false
        if lockd then .lockedIgnore else .createNull

theorem maxLe_foldl_mem (f : Option Path → Path → Option Path)
    (hf : ∀ acc l, f acc l = acc ∨ f acc l = some l) :
    ∀ (l : List Path) (acc : Option Path) (m : Path),
      l.foldl f acc = some m → acc = some m ∨ m ∈ l
  | [], acc, m, h => Or.inl h
  | x :: l, acc, m, h => by
    rcases maxLe_foldl_mem f hf l (f acc x) m h with h1 | h1
    · rcases hf acc x with h2 | h2
      · exact Or.inl (h2 ▸ h1)
      · rw [h2] at h1
        exact Or.inr (by simp [Option.some_inj.mp h1])
    · exact Or.inr (List.mem_cons_of_mem _ h1)

theorem maxLe_mem (locked : List Path) (path : Path) (m : Path)
    (h : maxLe locked path = some m) : m ∈ locked := by
  have hf : ∀ (acc : Option Path) (l : Path),
      (match acc with
        | none => some l
        | some m => if lexLt m l then some l else some m) = acc ∨
      (match acc with
        | none => some l
        | some m => if lexLt m l then some l else some m) = some l := by
    intro acc l
    cases acc with
    | none => exact Or.inr rfl
    | some a =>
      by_cases hlt : lexLt a l
      · exact Or.inr (by simp [hlt])
      · exact Or.inl (by simp [hlt])
  rcases maxLe_foldl_mem _ hf _ none m h with h1 | h1
  · exact Option.noConfusion h1
  · exact (List.mem_filter.mp h1).1

end Container

/-- C10 counterexample: the claim says that when some entry of the locked
set is a parent of the requested (in-base, non-reserved, absent) path, the
default publish request is ignored and no cell is created.  But the code
only tests the lexicographically greatest locked entry ≤ the path: with
locked = {"/a", "/a/b"} and path "/a/c", that entry is "/a/b", which is not
a parent, so the handler creates the cell — even though the locked entry
"/a" is a parent of "/a/c". -/
theorem C10_counterexample :
    Container.pstr "/a" ∈ [Container.pstr "/a", Container.pstr "/a/b"] ∧
    Container.is_parent (Container.pstr "/a") (Container.pstr "/a/c") = true ∧
    Container.process_publish_request (Container.pstr "/")
        [Container.pstr "/a", Container.pstr "/a/b"] (fun _ => none)
        (Container.pstr "/a/c") =
      Container.PublishAction.createNull := by
  refine ⟨by decide, by decide, by decide⟩

/-- C10 (amended): for a default publish request for a path under
`base_path` whose basename is not `.formula` or `.on-write` and which is
absent from the database, the request is ignored exactly when the
lexicographically greatest locked entry ≤ the path is a parent of the path;
otherwise the handler creates the cell, writing `Value::Null` through
`set_data(false, path, Null)` and publishing the path with value `Null`.
In particular, when no locked entry at all is a parent, the cell is
created. -/
theorem C10_default_publish_request (base : Container.Path)
    (locked : List Container.Path) (lookup : Container.Path → Option Container.Datum)
    (path : Container.Path) (hbase : base.isPrefixOf path = true)
    (hname : ¬(Container.basename path = some (Container.pstr ".formula") ∨
      Container.basename path = some (Container.pstr ".on-write")))
    (habsent : lookup path = none) :
    (Container.process_publish_request base locked lookup path =
        Container.PublishAction.lockedIgnore ↔
      (∃ m, Container.maxLe locked path = some m ∧
        Container.is_parent m path = true)) ∧
    ((∀ l ∈ locked, Container.is_parent l path = false) →
      Container.process_publish_request base locked lookup path =
        Container.PublishAction.createNull) := by
  have hred : Container.process_publish_request base locked lookup path =
      (match Container.maxLe locked path with
        | some p =>
          if Container.is_parent p path then Container.PublishAction.lockedIgnore
          else Container.PublishAction.createNull
        | none => Container.PublishAction.createNull) := by
    rw [Container.process_publish_request, Container.check_path, if_pos hbase]
    simp only [if_neg hname, habsent]
    cases hm : Container.maxLe locked path with
    | none => simp
    | some p => by_cases hp : Container.is_parent p path <;> simp [hp]
  constructor
  · rw [hred]
    cases hm : Container.maxLe locked path with
    | none =>
      constructor
      · intro h
        exact absurd h (by simp)
      · rintro ⟨m, hm2, -⟩
        exact Option.noConfusion hm2
    | some p =>
      by_cases hp : Container.is_parent p path = true
      · simp only [hp, if_true]
        constructor
        · intro _
          exact ⟨p, rfl, hp⟩
        · intro _
          trivial
      · simp only [hp, if_false]
        constructor
        · intro h
          exact absurd h (by simp)
        · rintro ⟨m, hm2, hpar⟩
          exact absurd (Option.some_inj.mp hm2 ▸ hpar) hp
  · intro hnone
    rw [hred]
    cases hm : Container.maxLe locked path with
    | none => simp
    | some p =>
      have := hnone p (Container.maxLe_mem locked path p hm)
      simp [this]

/-- Witness for C10 at a concrete locked set: under base "/", with "/a"
locked, the absent path "/a/c" is ignored (the greatest entry ≤ it is "/a",
a parent); with only "/b" locked it is created. -/
theorem C10_default_publish_request_witness :
    Container.process_publish_request (Container.pstr "/") [Container.pstr "/a"]
        (fun _ => none) (Container.pstr "/a/c") =
      Container.PublishAction.lockedIgnore ∧
    Container.process_publish_request (Container.pstr "/") [Container.pstr "/b"]
        (fun _ => none) (Container.pstr "/a/c") =
      Container.PublishAction.createNull := by
  constructor
  · exact (C10_default_publish_request (Container.pstr "/") [Container.pstr "/a"]
      (fun _ => none) (Container.pstr "/a/c") (by decide) (by decide) rfl).1.mpr
      ⟨Container.pstr "/a", by decide, by decide⟩
  · exact (C10_default_publish_request (Container.pstr "/") [Container.pstr "/b"]
      (fun _ => none) (Container.pstr "/a/c") (by decide) (by decide) rfl).2
      (by decide)

namespace Container

/-- `append` on paths (netidx `Path::append`, spec §3): child joined with a
`/` separator. -/
def appendP (p : Path) (child : String) : Path := p ++ '/' :: child.toList

/-- The shared `Fifo` record of a formula row (`container/mod.rs:72-81`):
the three published value ids, the row path, and the two (mutable, behind
`Mutex`) expression ids.  `Arc<Fifo>` sharing is modelled with an explicit
heap (`CState.fifos`), so mutating a fifo is visible through every
reference to it. -/
structure Fifo where
  data_path : Path
  data_id : Nat
  src_id : Nat
  on_write_id : Nat
  expr_id : Nat
  on_write_expr_id : Nat
  deriving DecidableEq, Repr

/-- `Published` (`container/mod.rs:88-92`): a published data cell, or a
reference into the fifo heap. -/
inductive Published where
  | dataP (id : Nat) (path : Path)
  | formulaP (fid : Nat)
  deriving DecidableEq, Repr

/-- A `Compiled` entry (`container/mod.rs:443-446`) with the node state
abstracted away: the claim under verification counts entries and their
variants, which do not depend on the node. -/
inductive CompiledKind where
  | formula (data_id : Nat)
  | onWrite
  deriving DecidableEq, Repr

/-- The container bookkeeping state the compiled-entry invariant ranges
over: `by_path`, `by_id`, the `Arc<Fifo>` heap, the `compiled` map, and
fresh-id supplies for `ExprId::new()`/parse ids, publisher value ids, and
fifo allocations. -/
structure CState where
  byPath : Path → Option Published
  byId : Nat → Option Published
  fifos : Nat → Option Fifo
  compiled : Nat → Option CompiledKind
  nextExpr : Nat
  nextId : Nat
  nextFifo : Nat

/-- The state of a container with nothing published. -/
def CState.empty : CState :=
  ⟨fun _ => none, fun _ => none, fun _ => none, fun _ => none, 0, 0, 0⟩

/-- Whether a source `Value` casts to text that parses
(`value.cast_to::<Chars>().and_then(parse)`, `container/mod.rs:504-513`).
The bscript parser (`netidx-bscript`'s `expr`, not under `src/`) is
modelled from the spec by the predicate `parses` saying which sources
parse; the claims only depend on success or failure. -/
def parsesValue (parses : String → Bool) (v : Value) : Bool :=
  match v.castToChars with
  | some s => parses s
  | none => false

/-- `Container::publish_formula` (`container/mod.rs:497-567`).  Publishes
the three vals and registers them in `by_id`/`by_path` pointing at a fresh
shared fifo whose two id cells both start as the formula's id
(`container/mod.rs:544-545`); then — only if both sources parsed — inserts
the two compiled entries and stores the definitive ids in the fifo.  When
either source fails to parse, the `?` on the compile results returns early:
the fifo stays registered with no compiled entries. -/
def c_publish_formula (parses : String → Bool) (st : CState) (path : Path)
    (ftxt wtxt : Value) : CState :=
  let fOk := parsesValue parses ftxt
  let wOk := parsesValue parses wtxt
  let expr_id := st.nextExpr
  let on_write_expr_id := st.nextExpr + 1
  let data_id := st.nextId
  let src_id := st.nextId + 1
  let ow_id := st.nextId + 2
  let fid := st.nextFifo
  let fifo0 : Fifo :=
    { data_path := path, data_id := data_id, src_id := src_id,
      on_write_id := ow_id, expr_id := expr_id, on_write_expr_id := expr_id }
  let st1 : CState :=
    { st with
      nextExpr := st.nextExpr + 2
      nextId := st.nextId + 3
      nextFifo := st.nextFifo + 1
      fifos := fun j => if j = fid then some fifo0 else st.fifos j
      byId := fun i =>
        if i = data_id ∨ i = src_id ∨ i = ow_id then some (.formulaP fid)
        else st.byId i
      byPath := fun q =>
        if q = path ∨ q = appendP path ".formula" ∨ q = appendP path ".on-write"
        then some (.formulaP fid) else st.byPath q }
  if fOk && wOk then
    { st1 with
      compiled := fun i =>
        if i = expr_id then some (.formula data_id)
        else if i = on_write_expr_id then some .onWrite
        else st.compiled i
      fifos := fun j =>
        if j = fid then
          some { fifo0 with expr_id := expr_id,
                            on_write_expr_id := on_write_expr_id }
        else st.fifos j }
  else st1

/-- `Container::change_formula` (`container/mod.rs:692-721`) on the fifo at
`fid`: remove the old compiled entry; if the new source parses, compile it
under a fresh id, insert the `Formula` entry and store the new id in the
fifo; on a parse failure publish the error value and leave the stale id in
the fifo with no compiled entry. -/
def c_change_formula (parses : String → Bool) (st : CState) (fid : Nat)
    (txt : String) : CState :=
  match st.fifos fid with
  | none => st
  | some fifo =>
    let removed : Nat → Option CompiledKind :=
      fun i => if i = fifo.expr_id then none else st.compiled i
    if parses txt then
      let nid := st.nextExpr
      { st with
        nextExpr := st.nextExpr + 1
        compiled := fun i =>
          if i = nid then some (.formula fifo.data_id) else removed i
        fifos := fun j =>
          if j = fid then some { fifo with expr_id := nid } else st.fifos j }
    else
      { st with compiled := removed }

/-- `Container::change_on_write` (`container/mod.rs:723-744`): the on-write
analogue of `c_change_formula`. -/
def c_change_on_write (parses : String → Bool) (st : CState) (fid : Nat)
    (txt : String) : CState :=
  match st.fifos fid with
  | none => st
  | some fifo =>
    let removed : Nat → Option CompiledKind :=
      fun i => if i = fifo.on_write_expr_id then none else st.compiled i
    if parses txt then
      let nid := st.nextExpr
      { st with
        nextExpr := st.nextExpr + 1
        compiled := fun i => if i = nid then some .onWrite else removed i
        fifos := fun j =>
          if j = fid then some { fifo with on_write_expr_id := nid }
          else st.fifos j }
    else
      { st with compiled := removed }

/-- `Container::publish_data` (`container/mod.rs:569-585`): publish a plain
data cell and register it in both indices. -/
def c_publish_data (st : CState) (path : Path) : CState :=
  { st with
    nextId := st.nextId + 1
    byId := fun i =>
      if i = st.nextId then some (.dataP st.nextId path) else st.byId i
    byPath := fun q =>
      if q = path then some (.dataP st.nextId path) else st.byPath q }

/-- `Container::remove_deleted_published` (`container/mod.rs:1036-1064`):
drop the published entry at `path`; for a formula row, also unpublish the
`.formula`/`.on-write` companions, drop all three `by_id` entries, remove
both compiled entries, and release the fifo. -/
def c_remove_deleted_published (st : CState) (path : Path) : CState :=
  match st.byPath path with
  | none => st
  | some (.dataP id _) =>
    { st with
      byPath := fun q => if q = path then none else st.byPath q
      byId := fun i => if i = id then none else st.byId i }
  | some (.formulaP fid) =>
    match st.fifos fid with
    | none => { st with byPath := fun q => if q = path then none else st.byPath q }
    | some fifo =>
      { st with
        byPath := fun q =>
          if q = path ∨ q = appendP path ".formula" ∨
              q = appendP path ".on-write" then none
          else st.byPath q
        byId := fun i =>
          if i = fifo.data_id ∨ i = fifo.src_id ∨ i = fifo.on_write_id then none
          else st.byId i
        compiled := fun i =>
          if i = fifo.expr_id ∨ i = fifo.on_write_expr_id then none
          else st.compiled i
        fifos := fun j => if j = fid then none else st.fifos j }

/-- The container operations the compiled-entry invariant quantifies over.
The `changeFormula`/`changeOnWrite` operations name the row by path, as
`process_update` does (`container/mod.rs:1096-1125`): they act on the fifo
the path resolves to and do nothing otherwise. -/
inductive COp where
  | publishFormula (path : Path) (ftxt wtxt : Value)
  | changeFormula (path : Path) (txt : String)
  | changeOnWrite (path : Path) (txt : String)
  | publishData (path : Path)
  | removeDeleted (path : Path)

/-- Apply one container operation. -/
def applyCOp (parses : String → Bool) (st : CState) : COp → CState
  | .publishFormula path f w => c_publish_formula parses st path f w
  | .changeFormula path txt =>
    match st.byPath path with
    | some (.formulaP fid) => c_change_formula parses st fid txt
    | _ => st
  | .changeOnWrite path txt =>
    match st.byPath path with
    | some (.formulaP fid) => c_change_on_write parses st fid txt
    | _ => st
  | .publishData path => c_publish_data st path
  | .removeDeleted path => c_remove_deleted_published st path

/-- The fifo at `fid` has exactly its two compiled entries: a
`Formula{data_id}` under its formula id and an `OnWrite` under its on-write
id (the two keys are necessarily distinct since they hold different
variants). -/
def FifoTwo (st : CState) (fid : Nat) : Prop :=
  ∃ fifo, st.fifos fid = some fifo ∧
    st.compiled fifo.expr_id = some (.formula fifo.data_id) ∧
    st.compiled fifo.on_write_expr_id = some .onWrite

end Container


namespace Container

/-- The bookkeeping invariant of the container: every `Published::Formula`
reachable from `by_path` or `by_id` has its two compiled entries
(`FifoTwo`), together with the structural facts that make it inductive:
expression ids and fifo slots are allocated below the fresh counters,
distinct fifos own disjoint expression ids, and a fifo is referenced only
under its three canonical paths and value ids. -/
structure Inv (st : CState) : Prop where
  goodPath : ∀ p fid, st.byPath p = some (.formulaP fid) → FifoTwo st fid
  goodId : ∀ i fid, st.byId i = some (.formulaP fid) → FifoTwo st fid
  bounds : ∀ fid fifo, st.fifos fid = some fifo →
    fifo.expr_id < st.nextExpr ∧ fifo.on_write_expr_id < st.nextExpr
  cbound : ∀ i, st.nextExpr ≤ i → st.compiled i = none
  own : ∀ fid fid' fifo fifo', st.fifos fid = some fifo →
    st.fifos fid' = some fifo' → fid ≠ fid' →
    fifo.expr_id ≠ fifo'.expr_id ∧ fifo.expr_id ≠ fifo'.on_write_expr_id ∧
    fifo.on_write_expr_id ≠ fifo'.expr_id ∧
    fifo.on_write_expr_id ≠ fifo'.on_write_expr_id
  canonPath : ∀ p fid fifo, st.byPath p = some (.formulaP fid) →
    st.fifos fid = some fifo →
    p = fifo.data_path ∨ p = appendP fifo.data_path ".formula" ∨
    p = appendP fifo.data_path ".on-write"
  canonId : ∀ i fid fifo, st.byId i = some (.formulaP fid) →
    st.fifos fid = some fifo →
    i = fifo.data_id ∨ i = fifo.src_id ∨ i = fifo.on_write_id
  fbound : ∀ j, st.nextFifo ≤ j → st.fifos j = none

/-- The operation's source texts parse (the hypothesis the amended claim
adds). -/
def COp.wellParsed (parses : String → Bool) : COp → Prop
  | .publishFormula _ f w =>
    parsesValue parses f = true ∧ parsesValue parses w = true
  | .changeFormula _ txt => parses txt = true
  | .changeOnWrite _ txt => parses txt = true
  | .publishData _ => True
  | .removeDeleted _ => True

/-- `remove_deleted_published` is invoked by `process_update` only on db
row paths (`container/mod.rs:1072-1144`); a formula row's companion
`.formula`/`.on-write` publishes are not rows (writes to them are routed to
`set_formula`/`set_on_write` on the row path, `container/mod.rs:760-773`),
so the removed path is the fifo's own `data_path`. -/
def COp.ok (st : CState) : COp → Prop
  | .removeDeleted p => ∀ fid, st.byPath p = some (.formulaP fid) →
      ∃ fifo, st.fifos fid = some fifo ∧ p = fifo.data_path
  | _ => True

/-- The state `publish_formula` produces when both sources parse. -/
def pfState (st : CState) (path : Path) : CState where
  byPath := fun q =>
    if q = path ∨ q = appendP path ".formula" ∨ q = appendP path ".on-write"
    then some (.formulaP st.nextFifo) else st.byPath q
  byId := fun i =>
    if i = st.nextId ∨ i = st.nextId + 1 ∨ i = st.nextId + 2
    then some (.formulaP st.nextFifo) else st.byId i
  fifos := fun j =>
    if j = st.nextFifo then
      some ⟨path, st.nextId, st.nextId + 1, st.nextId + 2,
        st.nextExpr, st.nextExpr + 1⟩
    else st.fifos j
  compiled := fun i =>
    if i = st.nextExpr then some (.formula st.nextId)
    else if i = st.nextExpr + 1 then some .onWrite
    else st.compiled i
  nextExpr := st.nextExpr + 2
  nextId := st.nextId + 3
  nextFifo := st.nextFifo + 1

theorem c_publish_formula_success (parses : String → Bool) (st : CState)
    (path : Path) (ftxt wtxt : Value)
    (hf : parsesValue parses ftxt = true) (hw : parsesValue parses wtxt = true) :
    c_publish_formula parses st path ftxt wtxt = pfState st path := by
  simp only [c_publish_formula, hf, hw, Bool.and_self, if_true]
  rfl

theorem fifos_ne_next {st : CState} (hInv : Inv st) {fid : Nat} {fifo : Fifo}
    (hfifo : st.fifos fid = some fifo) : fid ≠ st.nextFifo := by
  intro heq
  rw [hInv.fbound fid (le_of_eq heq.symm)] at hfifo
  exact Option.noConfusion hfifo

theorem pfState_fifoTwo_old {st : CState} (hInv : Inv st) {path : Path}
    {fid : Nat} (hne : fid ≠ st.nextFifo) (hTwo : FifoTwo st fid) :
    FifoTwo (pfState st path) fid := by
  obtain ⟨fifo, hfifo, hc1, hc2⟩ := hTwo
  obtain ⟨hb1, hb2⟩ := hInv.bounds fid fifo hfifo
  refine ⟨fifo, ?_, ?_, ?_⟩
  · simp [pfState, hne, hfifo]
  · have h1 : ¬fifo.expr_id = st.nextExpr := by omega
    have h2 : ¬fifo.expr_id = st.nextExpr + 1 := by omega
    show (if fifo.expr_id = st.nextExpr then some (.formula st.nextId)
      else if fifo.expr_id = st.nextExpr + 1 then some CompiledKind.onWrite
      else st.compiled fifo.expr_id) = some (.formula fifo.data_id)
    rw [if_neg h1, if_neg h2]
    exact hc1
  · have h1 : ¬fifo.on_write_expr_id = st.nextExpr := by omega
    have h2 : ¬fifo.on_write_expr_id = st.nextExpr + 1 := by omega
    show (if fifo.on_write_expr_id = st.nextExpr then some (.formula st.nextId)
      else if fifo.on_write_expr_id = st.nextExpr + 1 then some CompiledKind.onWrite
      else st.compiled fifo.on_write_expr_id) = some CompiledKind.onWrite
    rw [if_neg h1, if_neg h2]
    exact hc2

theorem pfState_fifoTwo_new (st : CState) (path : Path) :
    FifoTwo (pfState st path) st.nextFifo := by
  refine ⟨⟨path, st.nextId, st.nextId + 1, st.nextId + 2,
    st.nextExpr, st.nextExpr + 1⟩, by simp [pfState], by simp [pfState], ?_⟩
  have h1 : ¬st.nextExpr + 1 = st.nextExpr := by omega
  show (if st.nextExpr + 1 = st.nextExpr then some (.formula st.nextId)
    else if st.nextExpr + 1 = st.nextExpr + 1 then some CompiledKind.onWrite
    else st.compiled (st.nextExpr + 1)) = some CompiledKind.onWrite
  rw [if_neg h1, if_pos rfl]

theorem inv_publish_formula (parses : String → Bool) (st : CState)
    (path : Path) (ftxt wtxt : Value) (hInv : Inv st)
    (hf : parsesValue parses ftxt = true)
    (hw : parsesValue parses wtxt = true) :
    Inv (c_publish_formula parses st path ftxt wtxt) := by
  rw [c_publish_formula_success parses st path ftxt wtxt hf hw]
  constructor
  · intro p fid hp
    simp only [pfState] at hp
    by_cases hq : p = path ∨ p = appendP path ".formula" ∨
      p = appendP path ".on-write"
    · rw [if_pos hq] at hp
      cases hp
      exact pfState_fifoTwo_new st path
    · rw [if_neg hq] at hp
      have hold := hInv.goodPath p fid hp
      exact pfState_fifoTwo_old hInv
        (fifos_ne_next hInv hold.choose_spec.1) hold
  · intro i fid hp
    simp only [pfState] at hp
    by_cases hq : i = st.nextId ∨ i = st.nextId + 1 ∨ i = st.nextId + 2
    · rw [if_pos hq] at hp
      cases hp
      exact pfState_fifoTwo_new st path
    · rw [if_neg hq] at hp
      have hold := hInv.goodId i fid hp
      exact pfState_fifoTwo_old hInv
        (fifos_ne_next hInv hold.choose_spec.1) hold
  · intro fid fifo hfifo
    simp only [pfState] at hfifo ⊢
    by_cases hj : fid = st.nextFifo
    · rw [if_pos hj] at hfifo
      cases hfifo
      constructor <;> simp
    · rw [if_neg hj] at hfifo
      have := hInv.bounds fid fifo hfifo
      omega
  · intro i hi
    simp only [pfState] at hi ⊢
    have h1 : ¬i = st.nextExpr := by omega
    have h2 : ¬i = st.nextExpr + 1 := by omega
    rw [if_neg h1, if_neg h2]
    exact hInv.cbound i (by omega)
  · intro fid fid' fifo fifo' hfifo hfifo' hne
    simp only [pfState] at hfifo hfifo'
    by_cases hj : fid = st.nextFifo <;> by_cases hj' : fid' = st.nextFifo
    · exact absurd (hj.trans hj'.symm) hne
    · rw [if_pos hj] at hfifo
      rw [if_neg hj'] at hfifo'
      cases hfifo
      have hb := hInv.bounds fid' fifo' hfifo'
      refine ⟨?_, ?_, ?_, ?_⟩ <;> show ¬_ = _ <;> simp only [] <;> omega
    · rw [if_neg hj] at hfifo
      rw [if_pos hj'] at hfifo'
      cases hfifo'
      have hb := hInv.bounds fid fifo hfifo
      refine ⟨?_, ?_, ?_, ?_⟩ <;> show ¬_ = _ <;> simp only [] <;> omega
    · rw [if_neg hj] at hfifo
      rw [if_neg hj'] at hfifo'
      exact hInv.own fid fid' fifo fifo' hfifo hfifo' hne
  · intro p fid fifo hp hfifo
    simp only [pfState] at hp hfifo
    by_cases hq : p = path ∨ p = appendP path ".formula" ∨
      p = appendP path ".on-write"
    · rw [if_pos hq] at hp
      cases hp
      rw [if_pos rfl] at hfifo
      cases hfifo
      simpa using hq
    · rw [if_neg hq] at hp
      have hne := fifos_ne_next hInv (hInv.goodPath p fid hp).choose_spec.1
      rw [if_neg hne] at hfifo
      exact hInv.canonPath p fid fifo hp hfifo
  · intro i fid fifo hp hfifo
    simp only [pfState] at hp hfifo
    by_cases hq : i = st.nextId ∨ i = st.nextId + 1 ∨ i = st.nextId + 2
    · rw [if_pos hq] at hp
      cases hp
      rw [if_pos rfl] at hfifo
      cases hfifo
      simpa using hq
    · rw [if_neg hq] at hp
      have hne := fifos_ne_next hInv (hInv.goodId i fid hp).choose_spec.1
      rw [if_neg hne] at hfifo
      exact hInv.canonId i fid fifo hp hfifo
  · intro j hj
    simp only [pfState] at hj ⊢
    have h1 : ¬j = st.nextFifo := by omega
    rw [if_neg h1]
    exact hInv.fbound j (by omega)

end Container

namespace Container

theorem fifoTwo_ne {st : CState} {fifo : Fifo}
    (hc1 : st.compiled fifo.expr_id = some (.formula fifo.data_id))
    (hc2 : st.compiled fifo.on_write_expr_id = some .onWrite) :
    fifo.expr_id ≠ fifo.on_write_expr_id := by
  intro h
  rw [h, hc2] at hc1
  exact Option.noConfusion hc1 (fun h' => CompiledKind.noConfusion h')

theorem fifos_lt_next {st : CState} (hInv : Inv st) {fid : Nat} {fifo : Fifo}
    (hfifo : st.fifos fid = some fifo) : fid < st.nextFifo := by
  by_contra h
  rw [hInv.fbound fid (by omega)] at hfifo
  exact Option.noConfusion hfifo

theorem c_change_formula_success (parses : String → Bool) (st : CState)
    (fid : Nat) (txt : String) (fifo : Fifo) (h : st.fifos fid = some fifo)
    (hp : parses txt = true) :
    c_change_formula parses st fid txt =
      { st with
        nextExpr := st.nextExpr + 1
        compiled := fun i =>
          if i = st.nextExpr then some (.formula fifo.data_id)
          else if i = fifo.expr_id then none else st.compiled i
        fifos := fun j =>
          if j = fid then some { fifo with expr_id := st.nextExpr }
          else st.fifos j } := by
  simp only [c_change_formula, h, hp, if_true]

theorem c_change_on_write_success (parses : String → Bool) (st : CState)
    (fid : Nat) (txt : String) (fifo : Fifo) (h : st.fifos fid = some fifo)
    (hp : parses txt = true) :
    c_change_on_write parses st fid txt =
      { st with
        nextExpr := st.nextExpr + 1
        compiled := fun i =>
          if i = st.nextExpr then some .onWrite
          else if i = fifo.on_write_expr_id then none else st.compiled i
        fifos := fun j =>
          if j = fid then some { fifo with on_write_expr_id := st.nextExpr }
          else st.fifos j } := by
  simp only [c_change_on_write, h, hp, if_true]

theorem inv_change_formula (parses : String → Bool) (st : CState) (fid : Nat)
    (txt : String) (hInv : Inv st) (hp : parses txt = true)
    (hTwo : FifoTwo st fid) : Inv (c_change_formula parses st fid txt) := by
  obtain ⟨fifo, hfifo, hc1, hc2⟩ := hTwo
  have hneq := fifoTwo_ne hc1 hc2
  obtain ⟨hb1, hb2⟩ := hInv.bounds fid fifo hfifo
  rw [c_change_formula_success parses st fid txt fifo hfifo hp]
  have hTwo' : ∀ fid', FifoTwo st fid' →
      FifoTwo { st with
        nextExpr := st.nextExpr + 1
        compiled := fun i =>
          if i = st.nextExpr then some (.formula fifo.data_id)
          else if i = fifo.expr_id then none else st.compiled i
        fifos := fun j =>
          if j = fid then some { fifo with expr_id := st.nextExpr }
          else st.fifos j } fid' := by
    intro fid' ⟨fifo', hfifo', hc1', hc2'⟩
    by_cases hfe : fid' = fid
    · subst hfe
      refine ⟨{ fifo with expr_id := st.nextExpr }, by simp, by simp, ?_⟩
      have h1 : ¬fifo.on_write_expr_id = st.nextExpr := by omega
      show (if fifo.on_write_expr_id = st.nextExpr then
          some (.formula fifo.data_id)
        else if fifo.on_write_expr_id = fifo.expr_id then none
        else st.compiled fifo.on_write_expr_id) = some CompiledKind.onWrite
      rw [if_neg h1, if_neg (Ne.symm hneq), hc2]
    · obtain ⟨hb1', hb2'⟩ := hInv.bounds fid' fifo' hfifo'
      obtain ⟨ho1, ho2, ho3, ho4⟩ :=
        hInv.own fid' fid fifo' fifo hfifo' hfifo hfe
      refine ⟨fifo', by simp [hfe, hfifo'], ?_, ?_⟩
      · have h1 : ¬fifo'.expr_id = st.nextExpr := by omega
        show (if fifo'.expr_id = st.nextExpr then some (.formula fifo.data_id)
          else if fifo'.expr_id = fifo.expr_id then none
          else st.compiled fifo'.expr_id) = some (.formula fifo'.data_id)
        rw [if_neg h1, if_neg ho1, hc1']
      · have h1 : ¬fifo'.on_write_expr_id = st.nextExpr := by omega
        show (if fifo'.on_write_expr_id = st.nextExpr then
            some (.formula fifo.data_id)
          else if fifo'.on_write_expr_id = fifo.expr_id then none
          else st.compiled fifo'.on_write_expr_id) = some CompiledKind.onWrite
        rw [if_neg h1, if_neg ho3, hc2']
  constructor
  · intro p fid' hpath
    exact hTwo' fid' (hInv.goodPath p fid' hpath)
  · intro i fid' hid
    exact hTwo' fid' (hInv.goodId i fid' hid)
  · intro fid' fifo' hfifo'
    simp only [] at hfifo' ⊢
    by_cases hfe : fid' = fid
    · rw [if_pos hfe] at hfifo'
      cases hfifo'
      simp
      omega
    · rw [if_neg hfe] at hfifo'
      have := hInv.bounds fid' fifo' hfifo'
      omega
  · intro i hi
    simp only [] at hi ⊢
    have h1 : ¬i = st.nextExpr := by omega
    have h2 : ¬i = fifo.expr_id := by omega
    rw [if_neg h1, if_neg h2]
    exact hInv.cbound i (by omega)
  · intro fid1 fid2 fifo1 fifo2 hf1 hf2 hne12
    simp only [] at hf1 hf2
    by_cases he1 : fid1 = fid <;> by_cases he2 : fid2 = fid
    · exact absurd (he1.trans he2.symm) hne12
    · rw [if_pos he1] at hf1
      rw [if_neg he2] at hf2
      cases hf1
      obtain ⟨hp1, hp2, hp3, hp4⟩ :=
        hInv.own fid fid2 fifo fifo2 hfifo hf2
          (fun h => hne12 (he1.trans h))
      obtain ⟨hb1', hb2'⟩ := hInv.bounds fid2 fifo2 hf2
      exact ⟨by simp; omega, by simp; omega, by simpa using hp3,
        by simpa using hp4⟩
    · rw [if_neg he1] at hf1
      rw [if_pos he2] at hf2
      cases hf2
      obtain ⟨hp1, hp2, hp3, hp4⟩ :=
        hInv.own fid1 fid fifo1 fifo hf1 hfifo
          (fun h => hne12 (h.trans he2.symm))
      obtain ⟨hb1', hb2'⟩ := hInv.bounds fid1 fifo1 hf1
      exact ⟨by simp; omega, by simpa using hp2, by simp; omega,
        by simpa using hp4⟩
    · rw [if_neg he1] at hf1
      rw [if_neg he2] at hf2
      exact hInv.own fid1 fid2 fifo1 fifo2 hf1 hf2 hne12
  · intro p fid' fifo' hpath hfifo'
    simp only [] at hfifo'
    by_cases hfe : fid' = fid
    · rw [if_pos hfe] at hfifo'
      cases hfifo'
      subst hfe
      have := hInv.canonPath p fid' fifo hpath hfifo
      simpa using this
    · rw [if_neg hfe] at hfifo'
      exact hInv.canonPath p fid' fifo' hpath hfifo'
  · intro i fid' fifo' hid hfifo'
    simp only [] at hfifo'
    by_cases hfe : fid' = fid
    · rw [if_pos hfe] at hfifo'
      cases hfifo'
      subst hfe
      have := hInv.canonId i fid' fifo hid hfifo
      simpa using this
    · rw [if_neg hfe] at hfifo'
      exact hInv.canonId i fid' fifo' hid hfifo'
  · intro j hj
    simp only [] at hj ⊢
    have hlt := fifos_lt_next hInv hfifo
    have h1 : ¬j = fid := by omega
    rw [if_neg h1]
    exact hInv.fbound j (by omega)

end Container

namespace Container

theorem inv_change_on_write (parses : String → Bool) (st : CState) (fid : Nat)
    (txt : String) (hInv : Inv st) (hp : parses txt = true)
    (hTwo : FifoTwo st fid) : Inv (c_change_on_write parses st fid txt) := by
  obtain ⟨fifo, hfifo, hc1, hc2⟩ := hTwo
  have hneq := fifoTwo_ne hc1 hc2
  obtain ⟨hb1, hb2⟩ := hInv.bounds fid fifo hfifo
  rw [c_change_on_write_success parses st fid txt fifo hfifo hp]
  have hTwo' : ∀ fid', FifoTwo st fid' →
      FifoTwo { st with
        nextExpr := st.nextExpr + 1
        compiled := fun i =>
          if i = st.nextExpr then some .onWrite
          else if i = fifo.on_write_expr_id then none else st.compiled i
        fifos := fun j =>
          if j = fid then some { fifo with on_write_expr_id := st.nextExpr }
          else st.fifos j } fid' := by
    intro fid' ⟨fifo', hfifo', hc1', hc2'⟩
    by_cases hfe : fid' = fid
    · subst hfe
      refine ⟨{ fifo with on_write_expr_id := st.nextExpr }, by simp, ?_, by simp⟩
      have h1 : ¬fifo.expr_id = st.nextExpr := by omega
      show (if fifo.expr_id = st.nextExpr then some CompiledKind.onWrite
        else if fifo.expr_id = fifo.on_write_expr_id then none
        else st.compiled fifo.expr_id) = some (.formula fifo.data_id)
      rw [if_neg h1, if_neg hneq, hc1]
    · obtain ⟨hb1', hb2'⟩ := hInv.bounds fid' fifo' hfifo'
      obtain ⟨ho1, ho2, ho3, ho4⟩ :=
        hInv.own fid' fid fifo' fifo hfifo' hfifo hfe
      refine ⟨fifo', by simp [hfe, hfifo'], ?_, ?_⟩
      · have h1 : ¬fifo'.expr_id = st.nextExpr := by omega
        show (if fifo'.expr_id = st.nextExpr then some CompiledKind.onWrite
          else if fifo'.expr_id = fifo.on_write_expr_id then none
          else st.compiled fifo'.expr_id) = some (.formula fifo'.data_id)
        rw [if_neg h1, if_neg ho2, hc1']
      · have h1 : ¬fifo'.on_write_expr_id = st.nextExpr := by omega
        show (if fifo'.on_write_expr_id = st.nextExpr then
            some CompiledKind.onWrite
          else if fifo'.on_write_expr_id = fifo.on_write_expr_id then none
          else st.compiled fifo'.on_write_expr_id) = some CompiledKind.onWrite
        rw [if_neg h1, if_neg ho4, hc2']
  constructor
  · intro p fid' hpath
    exact hTwo' fid' (hInv.goodPath p fid' hpath)
  · intro i fid' hid
    exact hTwo' fid' (hInv.goodId i fid' hid)
  · intro fid' fifo' hfifo'
    simp only [] at hfifo' ⊢
    by_cases hfe : fid' = fid
    · rw [if_pos hfe] at hfifo'
      cases hfifo'
      simp
      omega
    · rw [if_neg hfe] at hfifo'
      have := hInv.bounds fid' fifo' hfifo'
      omega
  · intro i hi
    simp only [] at hi ⊢
    have h1 : ¬i = st.nextExpr := by omega
    have h2 : ¬i = fifo.on_write_expr_id := by omega
    rw [if_neg h1, if_neg h2]
    exact hInv.cbound i (by omega)
  · intro fid1 fid2 fifo1 fifo2 hf1 hf2 hne12
    simp only [] at hf1 hf2
    by_cases he1 : fid1 = fid <;> by_cases he2 : fid2 = fid
    · exact absurd (he1.trans he2.symm) hne12
    · rw [if_pos he1] at hf1
      rw [if_neg he2] at hf2
      cases hf1
      obtain ⟨hp1, hp2, hp3, hp4⟩ :=
        hInv.own fid fid2 fifo fifo2 hfifo hf2
          (fun h => hne12 (he1.trans h))
      obtain ⟨hb1', hb2'⟩ := hInv.bounds fid2 fifo2 hf2
      exact ⟨by simpa using hp1, by simpa using hp2, by simp; omega,
        by simp; omega⟩
    · rw [if_neg he1] at hf1
      rw [if_pos he2] at hf2
      cases hf2
      obtain ⟨hp1, hp2, hp3, hp4⟩ :=
        hInv.own fid1 fid fifo1 fifo hf1 hfifo
          (fun h => hne12 (h.trans he2.symm))
      obtain ⟨hb1', hb2'⟩ := hInv.bounds fid1 fifo1 hf1
      exact ⟨by simpa using hp1, by simp; omega, by simpa using hp3,
        by simp; omega⟩
    · rw [if_neg he1] at hf1
      rw [if_neg he2] at hf2
      exact hInv.own fid1 fid2 fifo1 fifo2 hf1 hf2 hne12
  · intro p fid' fifo' hpath hfifo'
    simp only [] at hfifo'
    by_cases hfe : fid' = fid
    · rw [if_pos hfe] at hfifo'
      cases hfifo'
      subst hfe
      have := hInv.canonPath p fid' fifo hpath hfifo
      simpa using this
    · rw [if_neg hfe] at hfifo'
      exact hInv.canonPath p fid' fifo' hpath hfifo'
  · intro i fid' fifo' hid hfifo'
    simp only [] at hfifo'
    by_cases hfe : fid' = fid
    · rw [if_pos hfe] at hfifo'
      cases hfifo'
      subst hfe
      have := hInv.canonId i fid' fifo hid hfifo
      simpa using this
    · rw [if_neg hfe] at hfifo'
      exact hInv.canonId i fid' fifo' hid hfifo'
  · intro j hj
    simp only [] at hj ⊢
    have hlt := fifos_lt_next hInv hfifo
    have h1 : ¬j = fid := by omega
    rw [if_neg h1]
    exact hInv.fbound j (by omega)

end Container

namespace Container

theorem fifoTwo_same_maps {st st' : CState} (hf : st'.fifos = st.fifos)
    (hc : st'.compiled = st.compiled) {fid : Nat} (h : FifoTwo st fid) :
    FifoTwo st' fid := by
  obtain ⟨fifo, h1, h2, h3⟩ := h
  exact ⟨fifo, by rw [hf]; exact h1, by rw [hc]; exact h2, by rw [hc]; exact h3⟩

theorem inv_publish_data (st : CState) (path : Path) (hInv : Inv st) :
    Inv (c_publish_data st path) := by
  constructor
  · intro p fid hp
    simp only [c_publish_data] at hp
    by_cases hq : p = path
    · rw [if_pos hq] at hp
      exact absurd hp (by simp)
    · rw [if_neg hq] at hp
      exact fifoTwo_same_maps rfl rfl (hInv.goodPath p fid hp)
  · intro i fid hp
    simp only [c_publish_data] at hp
    by_cases hq : i = st.nextId
    · rw [if_pos hq] at hp
      exact absurd hp (by simp)
    · rw [if_neg hq] at hp
      exact fifoTwo_same_maps rfl rfl (hInv.goodId i fid hp)
  · exact hInv.bounds
  · exact hInv.cbound
  · exact hInv.own
  · intro p fid fifo hp hfifo
    simp only [c_publish_data] at hp hfifo
    by_cases hq : p = path
    · rw [if_pos hq] at hp
      exact absurd hp (by simp)
    · rw [if_neg hq] at hp
      exact hInv.canonPath p fid fifo hp hfifo
  · intro i fid fifo hp hfifo
    simp only [c_publish_data] at hp hfifo
    by_cases hq : i = st.nextId
    · rw [if_pos hq] at hp
      exact absurd hp (by simp)
    · rw [if_neg hq] at hp
      exact hInv.canonId i fid fifo hp hfifo
  · exact hInv.fbound

theorem c_remove_deleted_formula (st : CState) (path : Path) (fid : Nat)
    (fifo : Fifo) (hpath : st.byPath path = some (.formulaP fid))
    (hfifo : st.fifos fid = some fifo) :
    c_remove_deleted_published st path =
      { st with
        byPath := fun q =>
          if q = path ∨ q = appendP path ".formula" ∨
              q = appendP path ".on-write" then none
          else st.byPath q
        byId := fun i =>
          if i = fifo.data_id ∨ i = fifo.src_id ∨ i = fifo.on_write_id then none
          else st.byId i
        compiled := fun i =>
          if i = fifo.expr_id ∨ i = fifo.on_write_expr_id then none
          else st.compiled i
        fifos := fun j => if j = fid then none else st.fifos j } := by
  simp only [c_remove_deleted_published, hpath, hfifo]

theorem inv_remove_deleted (st : CState) (path : Path) (hInv : Inv st)
    (hok : ∀ fid, st.byPath path = some (.formulaP fid) →
      ∃ fifo, st.fifos fid = some fifo ∧ path = fifo.data_path) :
    Inv (c_remove_deleted_published st path) := by
  cases hcase : st.byPath path with
  | none =>
    have : c_remove_deleted_published st path = st := by
      simp only [c_remove_deleted_published, hcase]
    rw [this]
    exact hInv
  | some pub =>
    cases pub with
    | dataP id ppath =>
      have hshape : c_remove_deleted_published st path =
          { st with
            byPath := fun q => if q = path then none else st.byPath q
            byId := fun i => if i = id then none else st.byId i } := by
        simp only [c_remove_deleted_published, hcase]
      rw [hshape]
      constructor
      · intro p fid hp
        simp only [] at hp
        by_cases hq : p = path
        · rw [if_pos hq] at hp
          exact Option.noConfusion hp
        · rw [if_neg hq] at hp
          exact fifoTwo_same_maps rfl rfl (hInv.goodPath p fid hp)
      · intro i fid hp
        simp only [] at hp
        by_cases hq : i = id
        · rw [if_pos hq] at hp
          exact Option.noConfusion hp
        · rw [if_neg hq] at hp
          exact fifoTwo_same_maps rfl rfl (hInv.goodId i fid hp)
      · exact hInv.bounds
      · exact hInv.cbound
      · exact hInv.own
      · intro p fid fifo hp hfifo
        simp only [] at hp hfifo
        by_cases hq : p = path
        · rw [if_pos hq] at hp
          exact Option.noConfusion hp
        · rw [if_neg hq] at hp
          exact hInv.canonPath p fid fifo hp hfifo
      · intro i fid fifo hp hfifo
        simp only [] at hp hfifo
        by_cases hq : i = id
        · rw [if_pos hq] at hp
          exact Option.noConfusion hp
        · rw [if_neg hq] at hp
          exact hInv.canonId i fid fifo hp hfifo
      · exact hInv.fbound
    | formulaP fid =>
      obtain ⟨fifo, hfifo, hdp⟩ := hok fid hcase
      rw [c_remove_deleted_formula st path fid fifo hcase hfifo]
      have hcanon : ∀ q, st.byPath q = some (.formulaP fid) →
          q = path ∨ q = appendP path ".formula" ∨ q = appendP path ".on-write" := by
        intro q hq
        have := hInv.canonPath q fid fifo hq hfifo
        rw [← hdp] at this
        exact this
      constructor
      · intro p fid' hp
        simp only [] at hp
        by_cases hq : p = path ∨ p = appendP path ".formula" ∨
            p = appendP path ".on-write"
        · rw [if_pos hq] at hp
          exact Option.noConfusion hp
        · rw [if_neg hq] at hp
          have hne : fid' ≠ fid := by
            intro h
            subst h
            exact hq (hcanon p hp)
          obtain ⟨fifo', hfifo', hc1', hc2'⟩ := hInv.goodPath p fid' hp
          obtain ⟨ho1, ho2, ho3, ho4⟩ :=
            hInv.own fid' fid fifo' fifo hfifo' hfifo hne
          refine ⟨fifo', ?_, ?_, ?_⟩
          · show (if fid' = fid then none else st.fifos fid') = some fifo'
            rw [if_neg hne]
            exact hfifo'
          · show (if fifo'.expr_id = fifo.expr_id ∨
                fifo'.expr_id = fifo.on_write_expr_id then none
              else st.compiled fifo'.expr_id) = some (.formula fifo'.data_id)
            rw [if_neg (by tauto), hc1']
          · show (if fifo'.on_write_expr_id = fifo.expr_id ∨
                fifo'.on_write_expr_id = fifo.on_write_expr_id then none
              else st.compiled fifo'.on_write_expr_id) = some CompiledKind.onWrite
            rw [if_neg (by tauto), hc2']
      · intro i fid' hp
        simp only [] at hp
        by_cases hq : i = fifo.data_id ∨ i = fifo.src_id ∨ i = fifo.on_write_id
        · rw [if_pos hq] at hp
          exact Option.noConfusion hp
        · rw [if_neg hq] at hp
          have hne : fid' ≠ fid := by
            intro h
            subst h
            exact hq (hInv.canonId i fid' fifo hp hfifo)
          obtain ⟨fifo', hfifo', hc1', hc2'⟩ := hInv.goodId i fid' hp
          obtain ⟨ho1, ho2, ho3, ho4⟩ :=
            hInv.own fid' fid fifo' fifo hfifo' hfifo hne
          refine ⟨fifo', ?_, ?_, ?_⟩
          · show (if fid' = fid then none else st.fifos fid') = some fifo'
            rw [if_neg hne]
            exact hfifo'
          · show (if fifo'.expr_id = fifo.expr_id ∨
                fifo'.expr_id = fifo.on_write_expr_id then none
              else st.compiled fifo'.expr_id) = some (.formula fifo'.data_id)
            rw [if_neg (by tauto), hc1']
          · show (if fifo'.on_write_expr_id = fifo.expr_id ∨
                fifo'.on_write_expr_id = fifo.on_write_expr_id then none
              else st.compiled fifo'.on_write_expr_id) = some CompiledKind.onWrite
            rw [if_neg (by tauto), hc2']
      · intro fid' fifo' hfifo'
        simp only [] at hfifo'
        by_cases hq : fid' = fid
        · rw [if_pos hq] at hfifo'
          exact Option.noConfusion hfifo'
        · rw [if_neg hq] at hfifo'
          exact hInv.bounds fid' fifo' hfifo'
      · intro i hi
        simp only [] at hi ⊢
        by_cases hq : i = fifo.expr_id ∨ i = fifo.on_write_expr_id
        · rw [if_pos hq]
        · rw [if_neg hq]
          exact hInv.cbound i hi
      · intro fid1 fid2 fifo1 fifo2 hf1 hf2 hne12
        simp only [] at hf1 hf2
        by_cases h1 : fid1 = fid
        · rw [if_pos h1] at hf1
          exact Option.noConfusion hf1
        · by_cases h2 : fid2 = fid
          · rw [if_pos h2] at hf2
            exact Option.noConfusion hf2
          · rw [if_neg h1] at hf1
            rw [if_neg h2] at hf2
            exact hInv.own fid1 fid2 fifo1 fifo2 hf1 hf2 hne12
      · intro p fid' fifo' hp hfifo'
        simp only [] at hp hfifo'
        by_cases hq : p = path ∨ p = appendP path ".formula" ∨
            p = appendP path ".on-write"
        · rw [if_pos hq] at hp
          exact Option.noConfusion hp
        · rw [if_neg hq] at hp
          by_cases hfe : fid' = fid
          · rw [if_pos hfe] at hfifo'
            exact Option.noConfusion hfifo'
          · rw [if_neg hfe] at hfifo'
            exact hInv.canonPath p fid' fifo' hp hfifo'
      · intro i fid' fifo' hp hfifo'
        simp only [] at hp hfifo'
        by_cases hq : i = fifo.data_id ∨ i = fifo.src_id ∨ i = fifo.on_write_id
        · rw [if_pos hq] at hp
          exact Option.noConfusion hp
        · rw [if_neg hq] at hp
          by_cases hfe : fid' = fid
          · rw [if_pos hfe] at hfifo'
            exact Option.noConfusion hfifo'
          · rw [if_neg hfe] at hfifo'
            exact hInv.canonId i fid' fifo' hp hfifo'
      · intro j hj
        simp only [] at hj ⊢
        by_cases hq : j = fid
        · rw [if_pos hq]
        · rw [if_neg hq]
          exact hInv.fbound j hj

end Container

namespace Container

theorem inv_empty : Inv CState.empty := by
  constructor
  · intro p fid h
    exact Option.noConfusion h
  · intro i fid h
    exact Option.noConfusion h
  · intro fid fifo h
    exact Option.noConfusion h
  · intro i _
    rfl
  · intro fid fid' fifo fifo' h
    exact Option.noConfusion h
  · intro p fid fifo h
    exact Option.noConfusion h
  · intro i fid fifo h
    exact Option.noConfusion h
  · intro j _
    rfl

theorem inv_applyCOp (parses : String → Bool) (st : CState) (op : COp)
    (hInv : Inv st) (hwp : op.wellParsed parses) (hok : op.ok st) :
    Inv (applyCOp parses st op) := by
  cases op with
  | publishFormula path f w =>
    exact inv_publish_formula parses st path f w hInv hwp.1 hwp.2
  | changeFormula path txt =>
    simp only [applyCOp]
    cases hcase : st.byPath path with
    | none => exact hInv
    | some pub =>
      cases pub with
      | dataP id p => exact hInv
      | formulaP fid =>
        exact inv_change_formula parses st fid txt hInv hwp
          (hInv.goodPath path fid hcase)
  | changeOnWrite path txt =>
    simp only [applyCOp]
    cases hcase : st.byPath path with
    | none => exact hInv
    | some pub =>
      cases pub with
      | dataP id p => exact hInv
      | formulaP fid =>
        exact inv_change_on_write parses st fid txt hInv hwp
          (hInv.goodPath path fid hcase)
  | publishData path => exact inv_publish_data st path hInv
  | removeDeleted path => exact inv_remove_deleted st path hInv hok

end Container

/-- The state `publish_formula` leaves behind when the formula source fails
to parse (no source parses under `fun _ => false`). -/
def c2BadState : Container.CState :=
  Container.applyCOp (fun _ => false) Container.CState.empty
    (Container.COp.publishFormula (Container.pstr "/x")
      (Value.string "bad") (Value.string "42"))

/-- C2 counterexample: the claim asserts the two-compiled-entries invariant
"including when either source text fails to parse".  But when the formula
source of `publish_formula` fails to parse, the `?` on the compile result
(`container/mod.rs:554`) returns early, after the three vals were
registered in `by_id`/`by_path` but before any compiled entry was inserted:
the row at `/x` is reachable as a `Published::Formula` whose fifo has zero
compiled entries (and whose two id cells both still hold the formula id,
`container/mod.rs:544-545`). -/
theorem C2_counterexample :
    c2BadState.byPath (Container.pstr "/x") =
      some (Container.Published.formulaP 0) ∧
    c2BadState.fifos 0 = some ⟨Container.pstr "/x", 0, 1, 2, 0, 0⟩ ∧
    c2BadState.compiled 0 = none ∧
    ¬Container.FifoTwo c2BadState 0 := by
  have h0 : c2BadState.compiled 0 = none := by decide
  have hf0 : c2BadState.fifos 0 = some ⟨Container.pstr "/x", 0, 1, 2, 0, 0⟩ := by
    decide
  refine ⟨by decide, hf0, h0, ?_⟩
  rintro ⟨fifo, hf, hc1, -⟩
  rw [hf0] at hf
  cases hf
  simp only [] at hc1
  rw [h0] at hc1
  exact Option.noConfusion hc1

/-- C2 (amended): the empty container satisfies the bookkeeping invariant,
and every container operation — `publish_formula`, `change_formula`,
`change_on_write`, `publish_data`, and `remove_deleted_published` as
invoked by `process_update` on row paths — preserves it, provided every
formula/on-write source involved parses successfully: afterwards every
`Published::Formula` reachable from `by_id`/`by_path` has exactly its two
compiled entries, a `Formula{node, data_id}` under the formula's ExprId and
an `OnWrite(node)` under the on-write handler's ExprId.  When a source
fails to parse the corresponding entry is absent (see the
counterexample). -/
theorem C2_two_compiled_entries :
    Container.Inv Container.CState.empty ∧
    ∀ (parses : String → Bool) (st : Container.CState) (op : Container.COp),
      Container.Inv st → op.wellParsed parses → op.ok st →
      Container.Inv (Container.applyCOp parses st op) :=
  ⟨Container.inv_empty, Container.inv_applyCOp⟩

/-- Witness for C2: publishing the (everywhere-parsing) formula row `/x`
on the empty container preserves the invariant. -/
theorem C2_two_compiled_entries_witness :
    Container.Inv (Container.applyCOp (fun _ => true) Container.CState.empty
      (Container.COp.publishFormula (Container.pstr "/x")
        (Value.string "a") (Value.string "b"))) :=
  C2_two_compiled_entries.2 (fun _ => true) Container.CState.empty
    (Container.COp.publishFormula (Container.pstr "/x")
      (Value.string "a") (Value.string "b"))
    C2_two_compiled_entries.1 ⟨rfl, rfl⟩ trivial
